import Mathlib

/-!
Verification development for the KiraFlux-GFX monochrome paged-framebuffer
graphics core (`src/kf/gfx/FrameView.hpp`, `src/kf/gfx/Canvas.hpp`,
`src/kf/gfx/BitMap.hpp`, `src/kf/gfx/Font.hpp`).

Modelling conventions:
* `Pixel` / `Position` (small signed scalar per the spec data model, with no
  silent wrap in the arithmetic relevant here) is modelled as `Int`.
* The display byte buffer is a total map `Int → Nat` from flat byte index to
  byte value; bytes are `u8`, so call sites maintain values `< 256`.
  The C++ expressions `v >> 3` and `v & 7` on signed values are arithmetic
  shift / two's-complement mask, i.e. floor division and Euclidean remainder:
  they are modelled by `v / 8` and `v % 8` (with Mathlib's `Int` instances,
  which are Euclidean division and remainder).  A `static_cast<u8>` of a
  possibly-out-of-range value is modelled as `(_ % 256).toNat`.
* The buffer pointer of a `FrameView` is split into the ambient `Buf` plus a
  `nullBuf` flag recording whether the pointer is null.
-/

namespace KF

/-- Byte buffer of the display: flat byte index to byte (`u8`) value. -/
abbrev Buf := Int → Nat

/-- `kf::gfx::FrameView` (FrameView.hpp): window state of a rectangular region
of the paged display buffer. -/
structure FrameView where
  nullBuf : Bool
  stride : Int
  offset_x : Int
  offset_y : Int
  width : Int
  height : Int
deriving DecidableEq

/-- `kf::gfx::FrameView::Error` (FrameView.hpp lines 16-29). -/
inductive FrameView.Error where
  | BufferNotInit
  | SizeTooSmall
  | SizeTooLarge
  | OffsetOutOfBounds
deriving DecidableEq

/-- `FrameView::create` (FrameView.hpp lines 52-79): null-buffer check first,
then the size check, otherwise the view is built from the given fields. -/
def FrameView.create (nullBuf : Bool) (stride width height offset_x offset_y : Int) :
    Except FrameView.Error FrameView :=
  if nullBuf = true then .error .BufferNotInit
  else if width < 1 ∨ height < 1 then .error .SizeTooSmall
  else .ok ⟨nullBuf, stride, offset_x, offset_y, width, height⟩

/-- `FrameView::sub` (FrameView.hpp lines 115-140). -/
def FrameView.sub (fv : FrameView) (sub_width sub_height sub_offset_x sub_offset_y : Int) :
    Except FrameView.Error FrameView :=
  if sub_offset_x ≥ fv.width ∨ sub_offset_y ≥ fv.height then .error .OffsetOutOfBounds
  else if sub_width > fv.width - sub_offset_x ∨ sub_height > fv.height - sub_offset_y then
    .error .SizeTooLarge
  else FrameView.create fv.nullBuf fv.stride sub_width sub_height
    (fv.offset_x + sub_offset_x) (fv.offset_y + sub_offset_y)

/-- `FrameView::isValid` (FrameView.hpp lines 169-171): note the source uses
`or` between the four conditions. -/
def FrameView.isValid (fv : FrameView) : Bool :=
  (!fv.nullBuf) || decide (fv.stride > 0) || decide (fv.width > 0) || decide (fv.height > 0)

/-- `FrameView::inside` (FrameView.hpp lines 173-175). -/
def FrameView.inside (fv : FrameView) (x y : Int) : Bool :=
  decide (x ≥ 0) && decide (x < fv.width) && decide (y ≥ 0) && decide (y < fv.height)

/-- `FrameView::toAbsoluteX` (FrameView.hpp lines 225-227). -/
def FrameView.toAbsoluteX (fv : FrameView) (x : Int) : Int := fv.offset_x + x

/-- `FrameView::toAbsoluteY` (FrameView.hpp lines 230-232). -/
def FrameView.toAbsoluteY (fv : FrameView) (y : Int) : Int := fv.offset_y + y

/-- `FrameView::getPage` (FrameView.hpp lines 235-237): `toAbsoluteY(y) >> 3`. -/
def FrameView.getPage (fv : FrameView) (y : Int) : Int := fv.toAbsoluteY y / 8

/-- `FrameView::getBitMask` (FrameView.hpp lines 240-242): `1 << (absY & 7)`. -/
def FrameView.getBitMask (fv : FrameView) (y : Int) : Nat :=
  1 <<< (fv.toAbsoluteY y % 8).toNat

/-- `FrameView::getByteIndex` (FrameView.hpp lines 245-247). -/
def FrameView.getByteIndex (fv : FrameView) (x y : Int) : Int :=
  fv.getPage y * fv.stride + fv.toAbsoluteX x

/-- `FrameView::writeData` (FrameView.hpp lines 327-334): one byte-level
read-modify-write at flat index `page * stride + abs_x`; `~data` on a `u8`
is complement within 8 bits, i.e. `255 ^^^ data`. -/
def FrameView.writeData (fv : FrameView) (buf : Buf) (abs_x page : Int) (data : Nat)
    (ink : Bool) : Buf :=
  fun i => if i = page * fv.stride + abs_x then
      (if ink then buf i ||| data else buf i &&& (255 ^^^ data))
    else buf i

/-- `FrameView::writePixel` (FrameView.hpp lines 319-324). -/
def FrameView.writePixel (fv : FrameView) (buf : Buf) (x y : Int) (ink : Bool) : Buf :=
  fv.writeData buf (fv.toAbsoluteX x) (fv.getPage y) (fv.getBitMask y) ink

/-- `FrameView::setPixel` (FrameView.hpp lines 178-182). -/
def FrameView.setPixel (fv : FrameView) (buf : Buf) (x y : Int) (ink : Bool) : Buf :=
  if fv.isValid && fv.inside x y then fv.writePixel buf x y ink else buf

/-- `FrameView::getPixel` (FrameView.hpp lines 185-190): the `u8 & mask`
result converts to `bool` as "nonzero". -/
def FrameView.getPixel (fv : FrameView) (buf : Buf) (x y : Int) : Bool :=
  if fv.isValid && fv.inside x y then
    decide (buf (fv.getByteIndex x y) &&& fv.getBitMask y ≠ 0)
  else false

/-- `FrameView::createPageMask` (FrameView.hpp lines 337-341). -/
def FrameView.createPageMask (start_bit end_bit : Nat) : Nat :=
  if start_bit > end_bit then 0
  else ((1 <<< (end_bit + 1)) - 1) ^^^ ((1 <<< start_bit) - 1)

/-- `FrameView::calculatePageMask` (FrameView.hpp lines 250-262). -/
def FrameView.calculatePageMask (fv : FrameView) (page : Int) : Nat :=
  let page_top := page * 8
  let page_bottom := page_top + 7
  let visible_top := max fv.offset_y page_top
  let visible_bottom := min (fv.offset_y + fv.height) (page_bottom + 1)
  if visible_top ≥ visible_bottom then 0
  else FrameView.createPageMask (visible_top - page_top).toNat
    (visible_bottom - page_top - 1).toNat

/-- Integer range `a, a+1, ..., b` (inclusive); empty when `b < a`.  Used to
model `for (Pixel page = start_page; page <= end_page; ++page)`. -/
def intRange (a b : Int) : List Int :=
  (List.range (b - a + 1).toNat).map (fun (k : Nat) => a + (k : Int))

/-- `FrameView::fill` (FrameView.hpp lines 193-207). -/
def FrameView.fill (fv : FrameView) (buf : Buf) (value : Bool) : Buf :=
  let start_page := fv.offset_y / 8
  let end_page := (fv.offset_y + fv.height + 6) / 8
  (intRange start_page end_page).foldl (fun b page =>
    let mask := fv.calculatePageMask page
    if mask = 0 then b
    else (List.range fv.width.toNat).foldl (fun b2 (xn : Nat) =>
      let abs_x := fv.toAbsoluteX (xn : Int)
      if abs_x < 0 ∨ abs_x ≥ fv.stride then b2
      else fv.writeData b2 abs_x page mask value) b) buf

/-- Spec-side comparison function for the `fill` refinement claim, modelled
from the spec's words: "calling `setPixel(x, y, value)` once for every
coordinate `(x,y)` with `0 <= x < width` and `0 <= y < height`" (row-major;
the order of the per-pixel calls does not affect the result). -/
def FrameView.setPixelAll (fv : FrameView) (buf : Buf) (value : Bool) : Buf :=
  (List.range fv.height.toNat).foldl (fun b (yn : Nat) =>
    (List.range fv.width.toNat).foldl (fun b2 (xn : Nat) =>
      fv.setPixel b2 (xn : Int) (yn : Int) value) b) buf

/-- `kf::gfx::BitMap<W, H>` (BitMap.hpp): a compile-time-sized page-packed
image; `buffer` maps a flat byte index (`page * W + column`) to a `u8`. -/
structure BitMap where
  W : Int
  H : Int
  buffer : Int → Nat

/-- `BitMap::pages = (H + 7) / 8` (BitMap.hpp line 18). -/
def BitMap.pages (bm : BitMap) : Int := (bm.H + 7) / 8

/-- `FrameView::calculateBitmapMask` (FrameView.hpp lines 265-277); the
`static_cast<u8>` on the clip values is modelled as `emod 256`. -/
def FrameView.calculateBitmapMask (fv : FrameView) (page_y : Int) : Nat :=
  let clip_top : Nat :=
    if page_y < fv.offset_y then ((fv.offset_y - page_y) % 256).toNat else 0
  let clip_bottom : Nat :=
    if page_y + 7 ≥ fv.offset_y + fv.height then
      ((fv.offset_y + fv.height - page_y - 1) % 256).toNat
    else 7
  FrameView.createPageMask clip_top clip_bottom

/-- `FrameView::writeBitmapData` (FrameView.hpp lines 302-316): when the
absolute vertical offset `page_y & 7` is nonzero the source byte is split,
low bits shifted left into the current page (truncated to `u8` by the
`writeData` parameter, hence `% 256`), high bits shifted right into the next
page. -/
def FrameView.writeBitmapData (fv : FrameView) (buf : Buf) (abs_x page_y : Int) (data : Nat)
    (ink : Bool) : Buf :=
  let page := page_y / 8
  let offset := (page_y % 8).toNat
  if offset = 0 then fv.writeData buf abs_x page data ink
  else
    let b1 := fv.writeData buf abs_x page ((data <<< offset) % 256) ink
    fv.writeData b1 abs_x (page + 1) (data >>> (8 - offset)) ink

/-- `FrameView::drawBitmapRow` (FrameView.hpp lines 280-299). -/
def FrameView.drawBitmapRow (fv : FrameView) (buf : Buf) (bm : BitMap)
    (page_idx x page_y : Int) (mask : Nat) (ink : Bool) : Buf :=
  let abs_x := fv.offset_x + x
  (List.range bm.W.toNat).foldl (fun b (bxn : Nat) =>
    let bx : Int := (bxn : Int)
    let target_x := abs_x + bx
    if target_x < fv.offset_x ∨ target_x ≥ fv.offset_x + fv.width then b
    else
      let data := bm.buffer (page_idx * bm.W + bx) &&& mask
      if data = 0 then b
      else fv.writeBitmapData b target_x page_y data ink) buf

/-- `FrameView::drawBitmap` (FrameView.hpp lines 210-222). -/
def FrameView.drawBitmap (fv : FrameView) (buf : Buf) (bm : BitMap) (x y : Int)
    (ink : Bool) : Buf :=
  (List.range bm.pages.toNat).foldl (fun b (pin : Nat) =>
    let page_idx : Int := (pin : Int)
    let page_y := fv.toAbsoluteY y + page_idx * 8
    if page_y + 7 < fv.offset_y ∨ page_y ≥ fv.offset_y + fv.height then b
    else
      let mask := fv.calculateBitmapMask page_y
      if mask = 0 then b
      else fv.drawBitmapRow b bm page_idx x page_y mask ink) buf

/-- The bit of the paged buffer at absolute column `ax`, absolute pixel row
`ay` (page `ay >> 3`, bit `ay & 7`), per the spec's addressing model. -/
def readBit (buf : Buf) (stride ax ay : Int) : Bool :=
  (buf (ay / 8 * stride + ax)).testBit (ay % 8).toNat

/-- The glyph-geometry fields of `kf::gfx::Font` (Font.hpp lines 20-23):
`glyph_width`, and `glyph_height` (documented as 1-8 pixel rows). -/
structure Font where
  glyph_width : Nat
  glyph_height : Nat

/-- The non-null-glyph branch of `Canvas::drawGlyph` (Canvas.hpp lines
465-472), the path taken by `Canvas::text` for every in-range character:
column by column, and for each column the inner loop iterates
`bit_index = 0; bit_index <= glyph_height` — the inclusive source bound —
writing `setPixel(x + col, y + bit, lit == on)` where `lit` is bit
`bit_index` of the glyph's column byte. -/
def Canvas.drawGlyph (fv : FrameView) (font : Font) (buf : Buf) (x y : Int)
    (glyph : Nat → Nat) (ink : Bool) : Buf :=
  (List.range font.glyph_width).foldl (fun b (col_index : Nat) =>
    let pixel_x := x + (col_index : Int)
    (List.range (font.glyph_height + 1)).foldl (fun b2 (bit_index : Nat) =>
      let lit := (glyph col_index).testBit bit_index
      fv.setPixel b2 pixel_x (y + (bit_index : Int)) (lit == ink)) b) buf

/-- How the general-case Bresenham loop of `Canvas::line` exits:
`hitTarget` is the combined check `x0 == x1 and y0 == y1` at the top,
`stopX` / `stopY` are the axis breaks inside the two advance branches,
`fuelOut` marks exhaustion of the fuel of the model (never reached when the
fuel bounds the iteration count). -/
inductive LineExit where
  | hitTarget
  | stopX
  | stopY
  | fuelOut
deriving DecidableEq

/-- The `while (true)` loop of the general (non-axis-aligned) case of
`Canvas::line` (Canvas.hpp lines 198-213), with an explicit fuel.  Each
iteration first plots the current point (collected in `acc`, newest first),
then tests the combined termination check, then the two independent advance
branches with their axis breaks. -/
def Canvas.lineLoop (x1 y1 dx dy sx sy : Int) :
    Nat → Int → Int → Int → List (Int × Int) → List (Int × Int) × LineExit
  | 0, _x0, _y0, _err, acc => (acc, .fuelOut)
  | fuel + 1, x0, y0, err, acc =>
    let acc1 := (x0, y0) :: acc
    if x0 = x1 ∧ y0 = y1 then (acc1, .hitTarget)
    else
      let e2 := 2 * err
      if e2 ≥ dy ∧ x0 = x1 then (acc1, .stopX)
      else
        let x0n := if e2 ≥ dy then x0 + sx else x0
        let err1 := if e2 ≥ dy then err + dy else err
        if e2 ≤ dx ∧ y0 = y1 then (acc1, .stopY)
        else
          let y0n := if e2 ≤ dx then y0 + sy else y0
          let err2 := if e2 ≤ dx then err1 + dx else err1
          Canvas.lineLoop x1 y1 dx dy sx sy fuel x0n y0n err2 acc1

/-- The general case of `Canvas::line` (Canvas.hpp lines 190-213), reached
when `x0 ≠ x1` and `y0 ≠ y1`: `dx = |x1-x0|`, `dy = -|y1-y0|`, unit steps
from the endpoint comparison, error accumulator starting at `dx + dy`.
The fuel `dx - dy + 1 = |x1-x0| + |y1-y0| + 1` bounds the iteration count
(each iteration advances at least one axis). -/
def Canvas.lineGeneral (x0 y0 x1 y1 : Int) : List (Int × Int) × LineExit :=
  let dx := |x1 - x0|
  let dy := -|y1 - y0|
  let sx : Int := if x0 < x1 then 1 else -1
  let sy : Int := if y0 < y1 then 1 else -1
  Canvas.lineLoop x1 y1 dx dy sx sy (dx - dy + 1).toNat x0 y0 (dx + dy) []

/-- `Canvas::drawCirclePoints` (Canvas.hpp lines 441-450): the coordinates of
the 8 `setPixel` calls, in source order. -/
def Canvas.circlePoints8 (cx cy dx dy : Int) : List (Int × Int) :=
  [(cx + dx, cy + dy), (cx + dy, cy + dx), (cx - dy, cy + dx), (cx - dx, cy + dy),
   (cx - dx, cy - dy), (cx - dy, cy - dx), (cx + dy, cy - dx), (cx + dx, cy - dy)]

/-- The `while (x >= y)` loop of `Canvas::circle` (Canvas.hpp lines 250-295)
in a border mode (`FillBorder` / `ClearBorder`, where `isFillMode` is false),
with an explicit fuel: per iteration `y` is incremented, the error updated,
`x` conditionally decremented, then `drawCirclePoints(cx, cy, x, y)` and,
when `x != y`, additionally `drawCirclePoints(cx, cy, y, x)`.  The result is
the list of coordinates passed to `setPixel`. -/
def Canvas.circleBorderLoop (cx cy : Int) : Nat → Int → Int → Int → List (Int × Int)
  | 0, _x, _y, _err => []
  | fuel + 1, x, y, err =>
    if x ≥ y then
      let y1 := y + 1
      let errA := err + 2 * y1 + 1
      let d : Bool := decide (2 * (errA - x) + 1 > 0)
      let x1 := if d then x - 1 else x
      let errB := if d then errA - (2 * x1 + 1) else errA
      (Canvas.circlePoints8 cx cy x1 y1 ++
        (if x1 ≠ y1 then Canvas.circlePoints8 cx cy y1 x1 else [])) ++
      Canvas.circleBorderLoop cx cy fuel x1 y1 errB
    else []

/-- `Canvas::circle(cx, cy, r, FillBorder)` (Canvas.hpp lines 243-296):
initial state `x = r, y = 0, err = 0`; the fuel `r.toNat + 2` strictly bounds
the number of iterations (`y` grows by one per iteration and the guard needs
`y ≤ x ≤ r`). -/
def Canvas.circleBorder (cx cy r : Int) : List (Int × Int) :=
  Canvas.circleBorderLoop cx cy (r.toNat + 2) r 0 0

/-- The 8 standard reflections of a point `p` about the center `(cx, cy)`:
negating and/or swapping the offsets from the center. -/
def reflections (cx cy : Int) (p : Int × Int) : List (Int × Int) :=
  let u := p.1 - cx
  let v := p.2 - cy
  [(cx + u, cy + v), (cx - u, cy + v), (cx + u, cy - v), (cx - u, cy - v),
   (cx + v, cy + u), (cx - v, cy + u), (cx + v, cy - u), (cx - v, cy - u)]

/-! ## Theorems -/

/-- Membership in the 8-point list of `drawCirclePoints`, phrased as sign and
swap choices on the offsets from the center. -/
theorem mem_circlePoints8_iff (cx cy dx dy qa qb : Int) :
    (qa, qb) ∈ Canvas.circlePoints8 cx cy dx dy ↔
      (((qa = cx + dx ∨ qa = cx - dx) ∧ (qb = cy + dy ∨ qb = cy - dy)) ∨
       ((qa = cx + dy ∨ qa = cx - dy) ∧ (qb = cy + dx ∨ qb = cy - dx))) := by
  simp only [Canvas.circlePoints8, List.mem_cons, List.not_mem_nil, or_false, Prod.mk.injEq]
  constructor
  · rintro (⟨h1, h2⟩ | ⟨h1, h2⟩ | ⟨h1, h2⟩ | ⟨h1, h2⟩ |
      ⟨h1, h2⟩ | ⟨h1, h2⟩ | ⟨h1, h2⟩ | ⟨h1, h2⟩)
    · exact Or.inl ⟨Or.inl h1, Or.inl h2⟩
    · exact Or.inr ⟨Or.inl h1, Or.inl h2⟩
    · exact Or.inr ⟨Or.inr h1, Or.inl h2⟩
    · exact Or.inl ⟨Or.inr h1, Or.inl h2⟩
    · exact Or.inl ⟨Or.inr h1, Or.inr h2⟩
    · exact Or.inr ⟨Or.inr h1, Or.inr h2⟩
    · exact Or.inr ⟨Or.inl h1, Or.inr h2⟩
    · exact Or.inl ⟨Or.inl h1, Or.inr h2⟩
  · rintro (⟨h1 | h1, h2 | h2⟩ | ⟨h1 | h1, h2 | h2⟩)
    · exact Or.inl ⟨h1, h2⟩
    · exact Or.inr (Or.inr (Or.inr (Or.inr (Or.inr (Or.inr (Or.inr ⟨h1, h2⟩))))))
    · exact Or.inr (Or.inr (Or.inr (Or.inl ⟨h1, h2⟩)))
    · exact Or.inr (Or.inr (Or.inr (Or.inr (Or.inl ⟨h1, h2⟩))))
    · exact Or.inr (Or.inl ⟨h1, h2⟩)
    · exact Or.inr (Or.inr (Or.inr (Or.inr (Or.inr (Or.inr (Or.inl ⟨h1, h2⟩))))))
    · exact Or.inr (Or.inr (Or.inl ⟨h1, h2⟩))
    · exact Or.inr (Or.inr (Or.inr (Or.inr (Or.inr (Or.inl ⟨h1, h2⟩)))))

/-- Membership in the reflection list of a point, phrased the same way. -/
theorem mem_reflections_iff (cx cy pa pb qa qb : Int) :
    (qa, qb) ∈ reflections cx cy (pa, pb) ↔
      (((qa = cx + (pa - cx) ∨ qa = cx - (pa - cx)) ∧
        (qb = cy + (pb - cy) ∨ qb = cy - (pb - cy))) ∨
       ((qa = cx + (pb - cy) ∨ qa = cx - (pb - cy)) ∧
        (qb = cy + (pa - cx) ∨ qb = cy - (pa - cx)))) := by
  simp only [reflections, List.mem_cons, List.not_mem_nil, or_false, Prod.mk.injEq]
  constructor
  · rintro (⟨h1, h2⟩ | ⟨h1, h2⟩ | ⟨h1, h2⟩ | ⟨h1, h2⟩ |
      ⟨h1, h2⟩ | ⟨h1, h2⟩ | ⟨h1, h2⟩ | ⟨h1, h2⟩)
    · exact Or.inl ⟨Or.inl h1, Or.inl h2⟩
    · exact Or.inl ⟨Or.inr h1, Or.inl h2⟩
    · exact Or.inl ⟨Or.inl h1, Or.inr h2⟩
    · exact Or.inl ⟨Or.inr h1, Or.inr h2⟩
    · exact Or.inr ⟨Or.inl h1, Or.inl h2⟩
    · exact Or.inr ⟨Or.inr h1, Or.inl h2⟩
    · exact Or.inr ⟨Or.inl h1, Or.inr h2⟩
    · exact Or.inr ⟨Or.inr h1, Or.inr h2⟩
  · rintro (⟨h1 | h1, h2 | h2⟩ | ⟨h1 | h1, h2 | h2⟩)
    · exact Or.inl ⟨h1, h2⟩
    · exact Or.inr (Or.inr (Or.inl ⟨h1, h2⟩))
    · exact Or.inr (Or.inl ⟨h1, h2⟩)
    · exact Or.inr (Or.inr (Or.inr (Or.inl ⟨h1, h2⟩)))
    · exact Or.inr (Or.inr (Or.inr (Or.inr (Or.inl ⟨h1, h2⟩))))
    · exact Or.inr (Or.inr (Or.inr (Or.inr (Or.inr (Or.inr (Or.inl ⟨h1, h2⟩))))))
    · exact Or.inr (Or.inr (Or.inr (Or.inr (Or.inr (Or.inl ⟨h1, h2⟩)))))
    · exact Or.inr (Or.inr (Or.inr (Or.inr (Or.inr (Or.inr (Or.inr ⟨h1, h2⟩))))))

/-- The 8 points plotted by one `drawCirclePoints` call form a full reflection
orbit: they are closed under the 8 standard reflections about the center. -/
theorem circlePoints8_closed (cx cy dx dy : Int) (p q : Int × Int)
    (hp : p ∈ Canvas.circlePoints8 cx cy dx dy) (hq : q ∈ reflections cx cy p) :
    q ∈ Canvas.circlePoints8 cx cy dx dy := by
  obtain ⟨pa, pb⟩ := p
  obtain ⟨qa, qb⟩ := q
  rw [mem_circlePoints8_iff] at hp ⊢
  rw [mem_reflections_iff] at hq
  rcases hp with ⟨ha | ha, hb | hb⟩ | ⟨ha | ha, hb | hb⟩ <;> subst ha <;> subst hb <;>
    rcases hq with ⟨g1 | g1, g2 | g2⟩ | ⟨g1 | g1, g2 | g2⟩ <;> subst g1 <;> subst g2 <;> omega

/-- Every point list produced by the border-mode circle loop is closed under
the 8 standard reflections about the center, whatever the loop state. -/
theorem circleBorderLoop_closed (cx cy : Int) (fuel : Nat) :
    ∀ (x y err : Int) (p q : Int × Int),
      p ∈ Canvas.circleBorderLoop cx cy fuel x y err →
      q ∈ reflections cx cy p → q ∈ Canvas.circleBorderLoop cx cy fuel x y err := by
  induction fuel with
  | zero =>
    intro x y err p q hp _
    simp [Canvas.circleBorderLoop] at hp
  | succ fuel ih =>
    intro x y err p q hp hq
    simp only [Canvas.circleBorderLoop] at hp ⊢
    by_cases hxy : x ≥ y
    · simp only [if_pos hxy, List.mem_append] at hp ⊢
      rcases hp with hp | hp
      · left
        rcases hp with hp | hp
        · exact Or.inl (circlePoints8_closed _ _ _ _ _ _ hp hq)
        · by_cases hne : (if (decide (2 * (err + 2 * (y + 1) + 1 - x) + 1 > 0) : Bool) then x - 1 else x) ≠ y + 1
          · rw [if_pos hne] at hp ⊢
            exact Or.inr (circlePoints8_closed _ _ _ _ _ _ hp hq)
          · rw [if_neg hne] at hp
            simp at hp
      · exact Or.inr (ih _ _ _ _ _ hp hq)
    · simp only [if_neg hxy] at hp
      simp at hp

/-- For radius 0 the border-mode circle plots exactly the four diagonal
neighbours of the center (and in particular not the center itself). -/
theorem circleBorder_zero_mem (cx cy : Int) (q : Int × Int) :
    q ∈ Canvas.circleBorder cx cy 0 ↔
      (q = (cx + 1, cy + 1) ∨ q = (cx + 1, cy - 1) ∨
       q = (cx - 1, cy + 1) ∨ q = (cx - 1, cy - 1)) := by
  obtain ⟨qa, qb⟩ := q
  norm_num [Canvas.circleBorder, Canvas.circleBorderLoop, Canvas.circlePoints8, Prod.mk.injEq]
  omega

/-- C8 (corrected): the set of points plotted by
`circle(cx, cy, r, FillBorder)` is invariant under all 8 standard reflections
about `(cx, cy)`, for every radius (in particular every `r ≥ 0`); however for
`r = 0` the plotted set is the four diagonal neighbours
`(cx ± 1, cy ± 1)` of the center, not the single point `(cx, cy)`. -/
theorem C8_circle_symmetry :
    (∀ (cx cy r : Int) (p q : Int × Int),
      p ∈ Canvas.circleBorder cx cy r → q ∈ reflections cx cy p →
        q ∈ Canvas.circleBorder cx cy r) ∧
    (∀ (cx cy : Int) (q : Int × Int),
      q ∈ Canvas.circleBorder cx cy 0 ↔
        (q = (cx + 1, cy + 1) ∨ q = (cx + 1, cy - 1) ∨
         q = (cx - 1, cy + 1) ∨ q = (cx - 1, cy - 1))) := by
  constructor
  · intro cx cy r p q hp hq
    exact circleBorderLoop_closed cx cy (r.toNat + 2) r 0 0 p q hp hq
  · exact circleBorder_zero_mem

/-- C8 counterexample to the claim as stated: for `r = 0` the plotted set is
not the single point `(cx, cy)` — at center `(0,0)`, the point `(1,1)` is
plotted and the center itself is not. -/
theorem C8_counterexample :
    ((1, 1) : Int × Int) ∈ Canvas.circleBorder 0 0 0 ∧
    ((1, 1) : Int × Int) ≠ (0, 0) ∧
    ((0, 0) : Int × Int) ∉ Canvas.circleBorder 0 0 0 := by decide

/-- C8 witness: the symmetry statement applied at a concrete radius-1 circle:
`(1,0)` is plotted, `(0,1)` is one of its reflections, and it is plotted. -/
theorem C8_witness :
    ((1, 0) : Int × Int) ∈ Canvas.circleBorder 0 0 1 ∧
    ((0, 1) : Int × Int) ∈ reflections 0 0 (1, 0) ∧
    ((0, 1) : Int × Int) ∈ Canvas.circleBorder 0 0 1 :=
  ⟨by decide, by decide, C8_circle_symmetry.1 0 0 1 (1, 0) (0, 1) (by decide) (by decide)⟩

/-- C3 (confirmed): sub-view composition — whenever
`view.sub(w1,h1,ox1,oy1)` succeeds with `v1`, `v1.sub(w2,h2,ox2,oy2)`
succeeds with `v2`, and the direct call `view.sub(w2,h2,ox1+ox2,oy1+oy2)`
succeeds with `v3`, the two results `v2` and `v3` are identical views (same
buffer, stride, absolute offsets, width and height). -/
theorem C3_sub_composition (fv : FrameView) (w1 h1 ox1 oy1 w2 h2 ox2 oy2 : Int)
    (v1 v2 v3 : FrameView)
    (h1s : fv.sub w1 h1 ox1 oy1 = .ok v1)
    (h2s : v1.sub w2 h2 ox2 oy2 = .ok v2)
    (h3s : fv.sub w2 h2 (ox1 + ox2) (oy1 + oy2) = .ok v3) :
    v2 = v3 := by
  simp only [FrameView.sub, FrameView.create] at h1s h2s h3s
  split_ifs at h1s h2s h3s <;> simp_all only [Except.ok.injEq, reduceCtorEq] <;>
    subst h1s <;> simp_all only [] <;> subst h2s <;> subst h3s <;>
    (congr 1 <;> first | rfl | omega)

/-- C3 witness: a concrete 128×64 root view, nested sub twice versus the
direct combined sub. -/
theorem C3_witness :
    (⟨false, 128, 0, 0, 128, 64⟩ : FrameView).sub 10 10 5 5 =
      .ok ⟨false, 128, 5, 5, 10, 10⟩ ∧
    (⟨false, 128, 5, 5, 10, 10⟩ : FrameView).sub 2 2 1 1 =
      .ok ⟨false, 128, 6, 6, 2, 2⟩ ∧
    (⟨false, 128, 0, 0, 128, 64⟩ : FrameView).sub 2 2 (5 + 1) (5 + 1) =
      .ok ⟨false, 128, 6, 6, 2, 2⟩ ∧
    (⟨false, 128, 6, 6, 2, 2⟩ : FrameView) = ⟨false, 128, 6, 6, 2, 2⟩ :=
  ⟨rfl, rfl, rfl,
    C3_sub_composition ⟨false, 128, 0, 0, 128, 64⟩ 10 10 5 5 2 2 1 1
      ⟨false, 128, 5, 5, 10, 10⟩ ⟨false, 128, 6, 6, 2, 2⟩ ⟨false, 128, 6, 6, 2, 2⟩
      rfl rfl rfl⟩

/-- C6 counterexample to the claim as stated: with a null buffer, `create`
with `width = 0` fails with `BufferNotInit`, not `SizeTooSmall` — the null
check runs first, so a zero size does not yield `SizeTooSmall` regardless of
the remaining arguments. -/
theorem C6_counterexample :
    FrameView.create true 1 0 1 0 0 = .error .BufferNotInit ∧
    FrameView.Error.BufferNotInit ≠ FrameView.Error.SizeTooSmall :=
  ⟨rfl, by decide⟩

/-- C6 (corrected): for every non-null buffer, `create` with `width = 0` or
`height = 0` fails with `SizeTooSmall`, regardless of the remaining
arguments. -/
theorem C6_create_zero_size (stride width height offset_x offset_y : Int)
    (h : width = 0 ∨ height = 0) :
    FrameView.create false stride width height offset_x offset_y =
      .error .SizeTooSmall := by
  simp only [FrameView.create]
  rcases h with h | h <;> subst h <;> split_ifs <;> first | rfl | omega | simp_all

/-- C6 witness: `create` on a non-null buffer with `width = 0`. -/
theorem C6_witness :
    ((0 : Int) = 0 ∨ (1 : Int) = 0) ∧
    FrameView.create false 1 0 1 0 0 = .error .SizeTooSmall :=
  ⟨Or.inl rfl, C6_create_zero_size 1 0 1 0 0 (Or.inl rfl)⟩

/-- C10 (confirmed): `sub` performs no lower-bound validation on offsets —
for every parent view with a non-null buffer and every negative
`sub_offset_x` or `sub_offset_y` satisfying the claim's size provisos, `sub`
succeeds, and the child's absolute offsets lie left of or above the parent's
region. -/
theorem C10_sub_negative_offsets (fv : FrameView) (sw sh sox soy : Int)
    (hnull : fv.nullBuf = false) (hneg : sox < 0 ∨ soy < 0)
    (hw1 : 1 ≤ sw) (hw2 : sw ≤ fv.width - sox)
    (hh1 : 1 ≤ sh) (hh2 : sh ≤ fv.height - soy) :
    fv.sub sw sh sox soy =
      .ok ⟨false, fv.stride, fv.offset_x + sox, fv.offset_y + soy, sw, sh⟩ ∧
    (fv.offset_x + sox < fv.offset_x ∨ fv.offset_y + soy < fv.offset_y) := by
  refine ⟨?_, by omega⟩
  simp only [FrameView.sub, FrameView.create, hnull]
  split_ifs <;> first | rfl | omega | simp_all

/-- C10 witness: a 4×4 parent at offset (3,3), child 2×2 at sub-offset
(-1, 0): `sub` succeeds with absolute offset (2, 3), left of the parent. -/
theorem C10_witness :
    (⟨false, 8, 3, 3, 4, 4⟩ : FrameView).sub 2 2 (-1) 0 =
      .ok ⟨false, 8, 3 + (-1), 3 + 0, 2, 2⟩ ∧
    ((3 : Int) + (-1) < 3 ∨ (3 : Int) + 0 < 3) :=
  C10_sub_negative_offsets ⟨false, 8, 3, 3, 4, 4⟩ 2 2 (-1) 0 rfl
    (Or.inl (by decide)) (by decide) (by decide) (by decide) (by decide)

/-- C5 counterexample to the claim as stated: a view whose buffer pointer is
null but whose dimensions are positive still passes `isValid` (the source
combines the four conditions with `or`), so an in-bounds `getPixel` proceeds
to read through the pointer instead of returning `false`: with the addressed
byte reading 1, it returns `true`. -/
theorem C5_counterexample :
    (⟨true, 1, 0, 0, 1, 1⟩ : FrameView).nullBuf = true ∧
    FrameView.getPixel ⟨true, 1, 0, 0, 1, 1⟩ (fun _ => 1) 0 0 = true :=
  ⟨rfl, by decide⟩

/-- C5 (corrected): `getPixel` returns `false` whenever the view fails
`isValid()` or `(x, y)` is out of the view's bounds; whenever `isValid()`
passes (which includes null-buffer views with any positive dimension, since
the source combines the conditions with `or`) and `(x, y)` is in bounds, it
reads and returns the addressed bit of the buffer memory. -/
theorem C5_getPixel_spec (fv : FrameView) (buf : Buf) (x y : Int) :
    (¬(fv.isValid = true ∧ fv.inside x y = true) → fv.getPixel buf x y = false) ∧
    (fv.isValid = true → fv.inside x y = true →
      fv.getPixel buf x y =
        (buf (fv.getByteIndex x y)).testBit ((fv.offset_y + y) % 8).toNat) := by
  constructor
  · intro h
    rw [FrameView.getPixel, if_neg]
    intro hb
    rw [Bool.and_eq_true] at hb
    exact h hb
  · intro h1 h2
    rw [FrameView.getPixel, if_pos (by rw [Bool.and_eq_true]; exact ⟨h1, h2⟩)]
    rw [FrameView.getBitMask, Nat.shiftLeft_eq, one_mul, Nat.and_two_pow]
    have habs : fv.toAbsoluteY y = fv.offset_y + y := rfl
    rw [habs]
    cases hb : (buf (fv.getByteIndex x y)).testBit ((fv.offset_y + y) % 8).toNat <;>
      simp [hb]

/-- C5 witness: a valid 1×1 view over a buffer of all-ones bytes; the
in-bounds read returns the addressed bit. -/
theorem C5_witness :
    (⟨false, 1, 0, 0, 1, 1⟩ : FrameView).isValid = true ∧
    (⟨false, 1, 0, 0, 1, 1⟩ : FrameView).inside 0 0 = true ∧
    FrameView.getPixel ⟨false, 1, 0, 0, 1, 1⟩ (fun _ => 1) 0 0 =
      ((fun _ => 1 : Buf) ((⟨false, 1, 0, 0, 1, 1⟩ : FrameView).getByteIndex 0 0)).testBit
        (((0 : Int) + 0) % 8).toNat :=
  ⟨by decide, by decide,
    (C5_getPixel_spec ⟨false, 1, 0, 0, 1, 1⟩ (fun _ => 1) 0 0).2 (by decide) (by decide)⟩

/-- C4 (code_bug, evaluation at the failing input): with `glyph_height = 5`
the glyph renderer of `Canvas::drawGlyph` iterates `bit_index` from 0 to
`glyph_height` inclusive, so it reads bit 5 of the column byte and writes
pixel row `y + 5` — the row just below the glyph cell's valid rows
`0..glyph_height-1`.  Concretely: on a zero buffer, a glyph whose column
byte is 32 (only bit 5 set) drawn at `(0,0)` with ink `true` leaves pixel
`(0, 5)` set, although the claim requires rows `0..4` only. -/
theorem C4_glyph_row_overrun :
    FrameView.getPixel ⟨false, 1, 0, 0, 1, 16⟩ (fun _ => 0) 0 5 = false ∧
    FrameView.getPixel ⟨false, 1, 0, 0, 1, 16⟩
      (Canvas.drawGlyph ⟨false, 1, 0, 0, 1, 16⟩ ⟨2, 5⟩ (fun _ => 0) 0 0 (fun _ => 32) true)
      0 5 = true := by
  constructor
  · decide
  · decide

/-- Invariant run of the general-case Bresenham loop: from the state reached
after `a` x-advances and `b` y-advances (error accumulator
`dx*(1+b) - dyA*(1+a)`), with enough fuel, the loop exits via the combined
termination check (never via the axis breaks) and the endpoint is the last
plotted point. -/
theorem lineLoop_hits_target (X0 Y0 dx dyA sx sy : Int)
    (hdx : 1 ≤ dx) (hdyA : 1 ≤ dyA)
    (hsx : sx = 1 ∨ sx = -1) (hsy : sy = 1 ∨ sy = -1) :
    ∀ (fuel : Nat) (a b : Int) (acc : List (Int × Int)),
      0 ≤ a → a ≤ dx → 0 ≤ b → b ≤ dyA →
      (dx - a) + (dyA - b) < (fuel : Int) →
      ∃ rest, Canvas.lineLoop (X0 + sx * dx) (Y0 + sy * dyA) dx (-dyA) sx sy fuel
          (X0 + sx * a) (Y0 + sy * b) (dx * (1 + b) - dyA * (1 + a)) acc =
        ((X0 + sx * dx, Y0 + sy * dyA) :: rest, .hitTarget) := by
  intro fuel
  induction fuel with
  | zero =>
    intro a b acc _ _ _ _ hf
    exfalso
    simp only [Nat.cast_zero] at hf
    omega
  | succ fuel ih =>
    intro a b acc ha0 haD hb0 hbD hf
    have hxeq : (X0 + sx * a = X0 + sx * dx) ↔ a = dx := by
      rcases hsx with h | h <;> subst h <;> constructor <;> intro hh <;> omega
    have hyeq : (Y0 + sy * b = Y0 + sy * dyA) ↔ b = dyA := by
      rcases hsy with h | h <;> subst h <;> constructor <;> intro hh <;> omega
    simp only [Canvas.lineLoop]
    by_cases hend : (X0 + sx * a = X0 + sx * dx ∧ Y0 + sy * b = Y0 + sy * dyA)
    · rw [if_pos hend]
      refine ⟨acc, ?_⟩
      rw [hxeq.mp hend.1, hyeq.mp hend.2]
    · rw [if_neg hend]
      have hnotboth : ¬(a = dx ∧ b = dyA) := by
        intro hc
        exact hend ⟨hxeq.mpr hc.1, hyeq.mpr hc.2⟩
      by_cases hstopx : (2 * (dx * (1 + b) - dyA * (1 + a)) ≥ -dyA ∧ X0 + sx * a = X0 + sx * dx)
      · exfalso
        have hax : a = dx := hxeq.mp hstopx.2
        have hblt : b < dyA := by
          rcases lt_or_eq_of_le hbD with h | h
          · exact h
          · exact absurd ⟨hax, h⟩ hnotboth
        have hkey := hstopx.1
        rw [hax] at hkey
        nlinarith [mul_le_mul_of_nonneg_left (show b + 1 ≤ dyA by omega)
          (show (0 : Int) ≤ 2 * dx by omega)]
      · rw [if_neg hstopx]
        by_cases hstopy : (2 * (dx * (1 + b) - dyA * (1 + a)) ≤ dx ∧ Y0 + sy * b = Y0 + sy * dyA)
        · exfalso
          have hby : b = dyA := hyeq.mp hstopy.2
          have halt : a < dx := by
            rcases lt_or_eq_of_le haD with h | h
            · exact h
            · exact absurd ⟨h, hby⟩ hnotboth
          have hkey := hstopy.1
          nlinarith [mul_nonneg (show (0 : Int) ≤ 2 * dyA by omega)
            (show (0 : Int) ≤ dx - 1 - a by omega)]
        · rw [if_neg hstopy]
          by_cases hadv : (2 * (dx * (1 + b) - dyA * (1 + a)) ≥ -dyA)
          · rw [if_pos hadv, if_pos hadv]
            have halt : a < dx := by
              rcases lt_or_eq_of_le haD with h | h
              · exact h
              · exfalso; exact hstopx ⟨hadv, hxeq.mpr h⟩
            by_cases hbdv : (2 * (dx * (1 + b) - dyA * (1 + a)) ≤ dx)
            · rw [if_pos hbdv, if_pos hbdv]
              have hblt : b < dyA := by
                rcases lt_or_eq_of_le hbD with h | h
                · exact h
                · exfalso; exact hstopy ⟨hbdv, hyeq.mpr h⟩
              obtain ⟨rest, hres⟩ := ih (a + 1) (b + 1)
                ((X0 + sx * a, Y0 + sy * b) :: acc)
                (by omega) (by omega) (by omega) (by omega) (by push_cast at hf ⊢; omega)
              rw [show X0 + sx * (a + 1) = X0 + sx * a + sx from by ring,
                show Y0 + sy * (b + 1) = Y0 + sy * b + sy from by ring,
                show dx * (1 + (b + 1)) - dyA * (1 + (a + 1)) =
                  dx * (1 + b) - dyA * (1 + a) + -dyA + dx from by ring] at hres
              exact ⟨rest, hres⟩
            · rw [if_neg hbdv, if_neg hbdv]
              obtain ⟨rest, hres⟩ := ih (a + 1) b
                ((X0 + sx * a, Y0 + sy * b) :: acc)
                (by omega) (by omega) (by omega) (by omega) (by push_cast at hf ⊢; omega)
              rw [show X0 + sx * (a + 1) = X0 + sx * a + sx from by ring,
                show dx * (1 + b) - dyA * (1 + (a + 1)) =
                  dx * (1 + b) - dyA * (1 + a) + -dyA from by ring] at hres
              exact ⟨rest, hres⟩
          · rw [if_neg hadv, if_neg hadv]
            have hbdv : (2 * (dx * (1 + b) - dyA * (1 + a)) ≤ dx) := by omega
            rw [if_pos hbdv, if_pos hbdv]
            have hblt : b < dyA := by
              rcases lt_or_eq_of_le hbD with h | h
              · exact h
              · exfalso; exact hstopy ⟨hbdv, hyeq.mpr h⟩
            obtain ⟨rest, hres⟩ := ih a (b + 1)
              ((X0 + sx * a, Y0 + sy * b) :: acc)
              (by omega) (by omega) (by omega) (by omega) (by push_cast at hf ⊢; omega)
            rw [show Y0 + sy * (b + 1) = Y0 + sy * b + sy from by ring,
              show dx * (1 + (b + 1)) - dyA * (1 + a) =
                dx * (1 + b) - dyA * (1 + a) + dx from by ring] at hres
            exact ⟨rest, hres⟩

/-- C7 (confirmed): for every pair of endpoints with `x0 != x1` and
`y0 != y1`, the general-case Bresenham loop of `Canvas::line` plots the
current point at the top of every iteration and terminates only via the
single combined check that both coordinates equal the target; in particular
the two axis breaks never fire, the loop never exhausts the iteration bound
`|x1-x0| + |y1-y0| + 1`, and the endpoint `(x1, y1)` is always the last
point plotted. -/
theorem C7_line_general (x0 y0 x1 y1 : Int) (hx : x0 ≠ x1) (hy : y0 ≠ y1) :
    ∃ rest, Canvas.lineGeneral x0 y0 x1 y1 = ((x1, y1) :: rest, LineExit.hitTarget) := by
  simp only [Canvas.lineGeneral]
  rcases lt_or_gt_of_ne hx with hxlt | hxgt <;> rcases lt_or_gt_of_ne hy with hylt | hygt
  · rw [if_pos hxlt, if_pos hylt, abs_of_pos (by omega : (0:Int) < x1 - x0),
      abs_of_pos (by omega : (0:Int) < y1 - y0)]
    obtain ⟨rest, hres⟩ := lineLoop_hits_target x0 y0 (x1 - x0) (y1 - y0) 1 1
      (by omega) (by omega) (Or.inl rfl) (Or.inl rfl)
      ((x1 - x0 - -(y1 - y0) + 1).toNat) 0 0 []
      (by omega) (by omega) (by omega) (by omega)
      (by rw [Int.toNat_of_nonneg (by omega)]; omega)
    rw [show x0 + 1 * (x1 - x0) = x1 from by ring, show y0 + 1 * (y1 - y0) = y1 from by ring,
      show x0 + 1 * 0 = x0 from by ring, show y0 + 1 * 0 = y0 from by ring,
      show (x1 - x0) * (1 + 0) - (y1 - y0) * (1 + 0) = x1 - x0 + -(y1 - y0) from by ring] at hres
    exact ⟨rest, hres⟩
  · rw [if_pos hxlt, if_neg (by omega), abs_of_pos (by omega : (0:Int) < x1 - x0),
      abs_of_neg (by omega : y1 - y0 < 0)]
    obtain ⟨rest, hres⟩ := lineLoop_hits_target x0 y0 (x1 - x0) (-(y1 - y0)) 1 (-1)
      (by omega) (by omega) (Or.inl rfl) (Or.inr rfl)
      ((x1 - x0 - - -(y1 - y0) + 1).toNat) 0 0 []
      (by omega) (by omega) (by omega) (by omega)
      (by rw [Int.toNat_of_nonneg (by omega)]; omega)
    rw [show x0 + 1 * (x1 - x0) = x1 from by ring, show y0 + -1 * -(y1 - y0) = y1 from by ring,
      show x0 + 1 * 0 = x0 from by ring, show y0 + -1 * 0 = y0 from by ring,
      show (x1 - x0) * (1 + 0) - -(y1 - y0) * (1 + 0) = x1 - x0 + - -(y1 - y0) from by ring] at hres
    exact ⟨rest, hres⟩
  · rw [if_neg (by omega), if_pos hylt, abs_of_neg (by omega : x1 - x0 < 0),
      abs_of_pos (by omega : (0:Int) < y1 - y0)]
    obtain ⟨rest, hres⟩ := lineLoop_hits_target x0 y0 (-(x1 - x0)) (y1 - y0) (-1) 1
      (by omega) (by omega) (Or.inr rfl) (Or.inl rfl)
      ((-(x1 - x0) - -(y1 - y0) + 1).toNat) 0 0 []
      (by omega) (by omega) (by omega) (by omega)
      (by rw [Int.toNat_of_nonneg (by omega)]; omega)
    rw [show x0 + -1 * -(x1 - x0) = x1 from by ring, show y0 + 1 * (y1 - y0) = y1 from by ring,
      show x0 + -1 * 0 = x0 from by ring, show y0 + 1 * 0 = y0 from by ring,
      show -(x1 - x0) * (1 + 0) - (y1 - y0) * (1 + 0) = -(x1 - x0) + -(y1 - y0) from by ring] at hres
    exact ⟨rest, hres⟩
  · rw [if_neg (by omega), if_neg (by omega), abs_of_neg (by omega : x1 - x0 < 0),
      abs_of_neg (by omega : y1 - y0 < 0)]
    obtain ⟨rest, hres⟩ := lineLoop_hits_target x0 y0 (-(x1 - x0)) (-(y1 - y0)) (-1) (-1)
      (by omega) (by omega) (Or.inr rfl) (Or.inr rfl)
      ((-(x1 - x0) - - -(y1 - y0) + 1).toNat) 0 0 []
      (by omega) (by omega) (by omega) (by omega)
      (by rw [Int.toNat_of_nonneg (by omega)]; omega)
    rw [show x0 + -1 * -(x1 - x0) = x1 from by ring, show y0 + -1 * -(y1 - y0) = y1 from by ring,
      show x0 + -1 * 0 = x0 from by ring, show y0 + -1 * 0 = y0 from by ring,
      show -(x1 - x0) * (1 + 0) - -(y1 - y0) * (1 + 0) = -(x1 - x0) + - -(y1 - y0) from by ring] at hres
    exact ⟨rest, hres⟩

/-- A byte ANDed with a power of two is nonzero exactly when the bit is set. -/
theorem and_pow_ne_zero_iff (n k : Nat) : (n &&& 2 ^ k ≠ 0) ↔ n.testBit k = true := by
  rw [Nat.and_two_pow]
  cases h : n.testBit k <;> simp [h, pow_ne_zero]

/-- `getPixel` on a valid, in-bounds coordinate reads the addressed bit. -/
theorem getPixel_eq_testBit (fv : FrameView) (buf : Buf) (a b : Int)
    (h : (fv.isValid && fv.inside a b) = true) :
    fv.getPixel buf a b =
      (buf (fv.getByteIndex a b)).testBit ((fv.offset_y + b) % 8).toNat := by
  rw [FrameView.getPixel, if_pos h, FrameView.getBitMask, Nat.shiftLeft_eq, one_mul]
  have habs : fv.toAbsoluteY b = fv.offset_y + b := rfl
  rw [habs]
  cases hb : (buf (fv.getByteIndex a b)).testBit ((fv.offset_y + b) % 8).toNat <;>
    simp [Nat.and_two_pow, hb, pow_ne_zero]

/-- The bit position of a row is below 8. -/
theorem emod8_toNat_lt (r : Int) : (r % 8).toNat < 8 := by omega

/-- A view with an in-bounds coordinate is `isValid` (its width is positive). -/
theorem isValid_of_inside (fv : FrameView) (a b : Int) (h : fv.inside a b = true) :
    fv.isValid = true := by
  rw [FrameView.inside] at h
  rw [FrameView.isValid]
  simp only [Bool.and_eq_true, decide_eq_true_eq] at h
  simp only [Bool.or_eq_true, decide_eq_true_eq]
  omega

/-- Read-after-write, same pixel: `setPixel` on a valid in-bounds coordinate
makes `getPixel` return the written value. -/
theorem getPixel_setPixel_same (fv : FrameView) (buf : Buf) (x y : Int) (v : Bool)
    (h : (fv.isValid && fv.inside x y) = true) :
    fv.getPixel (fv.setPixel buf x y v) x y = v := by
  rw [FrameView.setPixel, if_pos h, getPixel_eq_testBit fv _ x y h,
    FrameView.writePixel, FrameView.writeData]
  have hidx : fv.getByteIndex x y = fv.getPage y * fv.stride + fv.toAbsoluteX x := rfl
  rw [← hidx, if_pos rfl, FrameView.getBitMask, Nat.shiftLeft_eq, one_mul]
  have habs : fv.toAbsoluteY y = fv.offset_y + y := rfl
  rw [habs]
  set k := ((fv.offset_y + y) % 8).toNat with hk
  have hk8 : k < 8 := emod8_toNat_lt _
  cases v
  · simp only [Bool.false_eq_true, if_false]
    rw [Nat.testBit_and, Nat.testBit_xor, Nat.testBit_two_pow]
    have h255 : Nat.testBit 255 k = true := by
      have : (255 : Nat) = 2 ^ 8 - 1 := by norm_num
      rw [this, Nat.testBit_two_pow_sub_one]
      simpa using hk8
    simp [h255]
  · simp only [if_true]
    rw [Nat.testBit_or, Nat.testBit_two_pow]
    simp

/-- Two flat byte indices of the paged buffer coincide only when page and
column coincide, provided both columns lie inside `[0, stride)`. -/
theorem flat_index_inj (s p1 c1 p2 c2 : Int) (h1 : 0 ≤ c1) (h2 : c1 < s)
    (h3 : 0 ≤ c2) (h4 : c2 < s) (heq : p1 * s + c1 = p2 * s + c2) :
    p1 = p2 ∧ c1 = c2 := by
  have hkey : (p1 - p2) * s = c2 - c1 := by ring_nf; linarith
  rcases lt_trichotomy p1 p2 with h | h | h
  · exfalso
    have : (p1 - p2) * s ≤ (-1) * s :=
      mul_le_mul_of_nonneg_right (by omega) (by omega)
    omega
  · refine ⟨h, ?_⟩
    have h0 : (p1 - p2) * s = 0 := by rw [h]; ring
    omega
  · exfalso
    have : (1 : Int) * s ≤ (p1 - p2) * s :=
      mul_le_mul_of_nonneg_right (by omega) (by omega)
    omega

/-- Read-after-write, different pixel: under the display contract
(columns of the view lie inside `[0, stride)`), a `setPixel` at one
coordinate does not change `getPixel` at a different in-bounds coordinate. -/
theorem getPixel_setPixel_other (fv : FrameView) (buf : Buf) (x y a b : Int) (v : Bool)
    (hox : 0 ≤ fv.offset_x) (hw : fv.offset_x + fv.width ≤ fv.stride)
    (hne : (x, y) ≠ (a, b)) (hab : fv.inside a b = true) :
    fv.getPixel (fv.setPixel buf x y v) a b = fv.getPixel buf a b := by
  rw [FrameView.setPixel]
  by_cases hxy : (fv.isValid && fv.inside x y) = true
  case neg => rw [if_neg hxy]
  rw [if_pos hxy]
  have hvalid : (fv.isValid && fv.inside a b) = true := by
    rw [Bool.and_eq_true] at hxy ⊢
    exact ⟨hxy.1, hab⟩
  rw [getPixel_eq_testBit fv _ a b hvalid, getPixel_eq_testBit fv buf a b hvalid,
    FrameView.writePixel, FrameView.writeData]
  by_cases hidx : fv.getByteIndex a b = fv.getPage y * fv.stride + fv.toAbsoluteX x
  case neg => rw [if_neg hidx]
  rw [if_pos hidx]
  -- same flat byte: the written bit position must differ from the read one
  have hxyin : fv.inside x y = true := (Bool.and_eq_true .. |>.mp hxy).2
  rw [FrameView.inside] at hxyin hab
  simp only [Bool.and_eq_true, decide_eq_true_eq] at hxyin hab
  have hidx' : (fv.offset_y + b) / 8 * fv.stride + (fv.offset_x + a) =
      (fv.offset_y + y) / 8 * fv.stride + (fv.offset_x + x) := hidx
  have hinj := flat_index_inj fv.stride ((fv.offset_y + b) / 8) (fv.offset_x + a)
    ((fv.offset_y + y) / 8) (fv.offset_x + x)
    (by omega) (by omega) (by omega) (by omega) hidx'
  have hxa : x = a := by omega
  have hyb : y ≠ b := by
    intro hc
    exact hne (by rw [hxa, hc])
  have hkne : ((fv.offset_y + y) % 8).toNat ≠ ((fv.offset_y + b) % 8).toNat := by
    omega
  rw [FrameView.getBitMask, Nat.shiftLeft_eq, one_mul]
  have habs : fv.toAbsoluteY y = fv.offset_y + y := rfl
  rw [habs]
  cases v
  · simp only [Bool.false_eq_true, if_false]
    rw [Nat.testBit_and, Nat.testBit_xor, Nat.testBit_two_pow]
    have h255 : Nat.testBit 255 ((fv.offset_y + b) % 8).toNat = true := by
      have he : (255 : Nat) = 2 ^ 8 - 1 := by norm_num
      rw [he, Nat.testBit_two_pow_sub_one]
      simpa using emod8_toNat_lt (fv.offset_y + b)
    simp [h255, hkne]
  · simp only [if_true]
    rw [Nat.testBit_or, Nat.testBit_two_pow]
    simp [hkne]

/-- A fold of `setPixel` calls that all avoid a target pixel leaves the
target pixel's value unchanged (under the display contract). -/
theorem foldl_setPixel_preserve {l0 : Type} (fv : FrameView) (px py : l0 → Int)
    (pv : l0 → Bool) (a b : Int)
    (hox : 0 ≤ fv.offset_x) (hw : fv.offset_x + fv.width ≤ fv.stride)
    (hab : fv.inside a b = true) :
    ∀ (l : List l0) (buf : Buf), (∀ t ∈ l, (px t, py t) ≠ (a, b)) →
      fv.getPixel (l.foldl (fun acc t => fv.setPixel acc (px t) (py t) (pv t)) buf) a b
        = fv.getPixel buf a b := by
  intro l
  induction l with
  | nil => intro buf _; rfl
  | cons t ts ih =>
    intro buf hall
    rw [List.foldl_cons]
    rw [ih _ (fun u hu => hall u (List.mem_cons_of_mem _ hu))]
    exact getPixel_setPixel_other fv buf (px t) (py t) a b (pv t) hox hw
      (hall t (List.mem_cons_self t ts)) hab

/-- C9 (confirmed): glyph rendering is opaque — for every pixel of the glyph
cell the renderer visits (column `col < glyph_width`, row
`bit ≤ glyph_height`), whatever the previous buffer content, the final pixel
value is `(glyph bit set) == on`: a set glyph bit is written with the ink
value and a clear glyph bit with its inverse, so pre-existing content under
the visited cell is always overwritten. -/
theorem C9_drawGlyph_opaque (fv : FrameView) (font : Font) (buf : Buf) (x y : Int)
    (glyph : Nat → Nat) (ink : Bool) (col bit : Nat)
    (hcol : col < font.glyph_width) (hbit : bit < font.glyph_height + 1)
    (hox : 0 ≤ fv.offset_x) (hw : fv.offset_x + fv.width ≤ fv.stride)
    (hin : fv.inside (x + (col : Int)) (y + (bit : Int)) = true) :
    fv.getPixel (Canvas.drawGlyph fv font buf x y glyph ink) (x + (col : Int)) (y + (bit : Int))
      = (((glyph col).testBit bit) == ink) := by
  have hvalid : (fv.isValid && fv.inside (x + (col : Int)) (y + (bit : Int))) = true := by
    rw [Bool.and_eq_true]
    exact ⟨isValid_of_inside fv _ _ hin, hin⟩
  have hdef : Canvas.drawGlyph fv font buf x y glyph ink =
      (List.range font.glyph_width).foldl
        (fun bacc (c : Nat) => (List.range (font.glyph_height + 1)).foldl
          (fun b2 (kk : Nat) => fv.setPixel b2 (x + (c : Int)) (y + (kk : Int))
            (((glyph c).testBit kk) == ink)) bacc) buf := rfl
  rw [hdef]
  -- preservation by any whole column other than `col`
  have hinner_preserve : ∀ (c : Nat), (c : Int) ≠ (col : Int) → ∀ bufx : Buf,
      fv.getPixel ((List.range (font.glyph_height + 1)).foldl
        (fun b2 (kk : Nat) => fv.setPixel b2 (x + (c : Int)) (y + (kk : Int))
          (((glyph c).testBit kk) == ink)) bufx) (x + (col : Int)) (y + (bit : Int))
        = fv.getPixel bufx (x + (col : Int)) (y + (bit : Int)) := by
    intro c hc bufx
    exact foldl_setPixel_preserve fv _ _ _ _ _ hox hw hin _ bufx
      (by
        intro t _ hcontra
        rw [Prod.mk.injEq] at hcontra
        exact hc (by omega))
  have houter : ∀ (cl : List Nat) (bufx : Buf), (∀ c ∈ cl, (c : Int) ≠ (col : Int)) →
      fv.getPixel (cl.foldl
        (fun bacc (c : Nat) => (List.range (font.glyph_height + 1)).foldl
          (fun b2 (kk : Nat) => fv.setPixel b2 (x + (c : Int)) (y + (kk : Int))
            (((glyph c).testBit kk) == ink)) bacc) bufx) (x + (col : Int)) (y + (bit : Int))
        = fv.getPixel bufx (x + (col : Int)) (y + (bit : Int)) := by
    intro cl
    induction cl with
    | nil => intro bufx _; rfl
    | cons c cs ih =>
      intro bufx hall
      rw [List.foldl_cons, ih _ (fun u hu => hall u (List.mem_cons_of_mem _ hu))]
      exact hinner_preserve c (hall c (List.mem_cons_self c cs)) bufx
  -- the value established by processing column `col` itself
  have hmid : ∀ bufx : Buf,
      fv.getPixel ((List.range (font.glyph_height + 1)).foldl
        (fun b2 (kk : Nat) => fv.setPixel b2 (x + (col : Int)) (y + (kk : Int))
          (((glyph col).testBit kk) == ink)) bufx) (x + (col : Int)) (y + (bit : Int))
        = (((glyph col).testBit bit) == ink) := by
    intro bufx
    obtain ⟨kb, hkb⟩ : ∃ kb, font.glyph_height + 1 = (bit + 1) + kb :=
      ⟨font.glyph_height + 1 - (bit + 1), by omega⟩
    rw [hkb, List.range_add, List.foldl_append, List.range_succ, List.foldl_append]
    have hpres := foldl_setPixel_preserve fv
      (fun _ : Nat => x + (col : Int)) (fun t : Nat => y + ((bit + 1 + t : Nat) : Int))
      (fun t : Nat => ((glyph col).testBit (bit + 1 + t)) == ink)
      (x + (col : Int)) (y + (bit : Int)) hox hw hin
    calc fv.getPixel ((List.map (fun t => bit + 1 + t) (List.range kb)).foldl
          (fun b2 (kk : Nat) => fv.setPixel b2 (x + (col : Int)) (y + (kk : Int))
            (((glyph col).testBit kk) == ink))
          (List.foldl (fun b2 (kk : Nat) => fv.setPixel b2 (x + (col : Int)) (y + (kk : Int))
            (((glyph col).testBit kk) == ink)) ((List.range bit).foldl
              (fun b2 (kk : Nat) => fv.setPixel b2 (x + (col : Int)) (y + (kk : Int))
                (((glyph col).testBit kk) == ink)) bufx) [bit]))
          (x + (col : Int)) (y + (bit : Int))
        = fv.getPixel (List.foldl (fun b2 (kk : Nat) => fv.setPixel b2 (x + (col : Int)) (y + (kk : Int))
            (((glyph col).testBit kk) == ink)) ((List.range bit).foldl
              (fun b2 (kk : Nat) => fv.setPixel b2 (x + (col : Int)) (y + (kk : Int))
                (((glyph col).testBit kk) == ink)) bufx) [bit])
            (x + (col : Int)) (y + (bit : Int)) := by
          rw [List.foldl_map]
          exact hpres (List.range kb) _
            (by
              intro t _ hcontra
              simp only [Prod.mk.injEq] at hcontra
              omega)
      _ = (((glyph col).testBit bit) == ink) := by
          rw [List.foldl_cons, List.foldl_nil]
          exact getPixel_setPixel_same fv _ (x + (col : Int)) (y + (bit : Int)) _ hvalid
  obtain ⟨kc, hkc⟩ : ∃ kc, font.glyph_width = (col + 1) + kc :=
    ⟨font.glyph_width - (col + 1), by omega⟩
  have hlist : List.range font.glyph_width =
      (List.range col ++ [col]) ++ List.map (fun j => col + 1 + j) (List.range kc) := by
    rw [hkc, List.range_add, List.range_succ]
  rw [hlist, List.foldl_append, List.foldl_append]
  rw [houter _ _ (by
    intro c hc
    rw [List.mem_map] at hc
    obtain ⟨j, _, hj⟩ := hc
    omega)]
  rw [List.foldl_cons, List.foldl_nil]
  exact hmid _

/-- C7 witness: the line from (0,0) to (3,2). -/
theorem C7_witness :
    ((0 : Int) ≠ 3) ∧ ((0 : Int) ≠ 2) ∧
    ∃ rest, Canvas.lineGeneral 0 0 3 2 = ((3, 2) :: rest, LineExit.hitTarget) :=
  ⟨by decide, by decide, C7_line_general 0 0 3 2 (by decide) (by decide)⟩

/-- Fold characterization for OR-style (ink on) writes: the observed
predicate holds after the fold iff it held initially or some element
contributes it. -/
theorem foldl_char_or {l0 : Type} (g : Buf → Prop) (step : Buf → l0 → Buf) (P : l0 → Prop) :
    ∀ (l : List l0) (buf : Buf), (∀ (buf2 : Buf) (t : l0), t ∈ l → (g (step buf2 t) ↔ g buf2 ∨ P t)) →
      (g (l.foldl step buf) ↔ g buf ∨ ∃ t ∈ l, P t) := by
  intro l
  induction l with
  | nil => intro buf _; simp
  | cons t ts ih =>
    intro buf h
    rw [List.foldl_cons,
      ih _ (fun b2 u hu => h b2 u (List.mem_cons_of_mem _ hu)),
      h buf t (List.mem_cons_self t ts)]
    simp only [List.mem_cons]
    constructor
    · rintro ((hg | hp) | ⟨u, hu, hp⟩)
      · exact Or.inl hg
      · exact Or.inr ⟨t, Or.inl rfl, hp⟩
      · exact Or.inr ⟨u, Or.inr hu, hp⟩
    · rintro (hg | ⟨u, (hu | hu), hp⟩)
      · exact Or.inl (Or.inl hg)
      · exact Or.inl (Or.inr (hu ▸ hp))
      · exact Or.inr ⟨u, hu, hp⟩

/-- Fold characterization for AND-style (ink off) writes: the observed
predicate holds after the fold iff it held initially and no element clears
it. -/
theorem foldl_char_and {l0 : Type} (g : Buf → Prop) (step : Buf → l0 → Buf) (P : l0 → Prop) :
    ∀ (l : List l0) (buf : Buf), (∀ (buf2 : Buf) (t : l0), t ∈ l → (g (step buf2 t) ↔ g buf2 ∧ ¬P t)) →
      (g (l.foldl step buf) ↔ g buf ∧ ∀ t ∈ l, ¬P t) := by
  intro l
  induction l with
  | nil => intro buf _; simp
  | cons t ts ih =>
    intro buf h
    rw [List.foldl_cons,
      ih _ (fun b2 u hu => h b2 u (List.mem_cons_of_mem _ hu)),
      h buf t (List.mem_cons_self t ts)]
    simp only [List.mem_cons]
    constructor
    · rintro ⟨⟨hg, hp⟩, hall⟩
      exact ⟨hg, fun u hu => hu.elim (fun he => he ▸ hp) (hall u)⟩
    · rintro ⟨hg, hall⟩
      exact ⟨⟨hg, hall t (Or.inl rfl)⟩, fun u hu => hall u (Or.inr hu)⟩

/-- Folds whose steps keep bytes below 256 keep the whole buffer below 256. -/
theorem foldl_bytes_lt {l0 : Type} (step : Buf → l0 → Buf)
    (h : ∀ (b : Buf) (t : l0), (∀ i, b i < 256) → ∀ i, (step b t) i < 256) :
    ∀ (l : List l0) (buf : Buf), (∀ i, buf i < 256) → ∀ i, (l.foldl step buf) i < 256 := by
  intro l
  induction l with
  | nil => intro buf hb i; exact hb i
  | cons t ts ih =>
    intro buf hb i
    rw [List.foldl_cons]
    exact ih _ (h buf t hb) i

/-- The single write of `writeData` with ink on, observed bit-by-bit. -/
theorem writeData_testBit_or (fv : FrameView) (buf : Buf) (abs_x page : Int) (data : Nat)
    (i : Int) (k : Nat) :
    ((fv.writeData buf abs_x page data true) i).testBit k = true ↔
      ((buf i).testBit k = true ∨ (i = page * fv.stride + abs_x ∧ data.testBit k = true)) := by
  rw [FrameView.writeData]
  by_cases hi : i = page * fv.stride + abs_x
  · rw [if_pos hi, if_pos rfl]
    rw [Nat.testBit_or, Bool.or_eq_true]
    tauto
  · rw [if_neg hi]
    tauto

/-- The single write of `writeData` with ink off, observed bit-by-bit
(for bit positions inside the byte). -/
theorem writeData_testBit_and (fv : FrameView) (buf : Buf) (abs_x page : Int) (data : Nat)
    (i : Int) (k : Nat) (hk : k < 8) :
    ((fv.writeData buf abs_x page data false) i).testBit k = true ↔
      ((buf i).testBit k = true ∧ ¬(i = page * fv.stride + abs_x ∧ data.testBit k = true)) := by
  rw [FrameView.writeData]
  by_cases hi : i = page * fv.stride + abs_x
  · rw [if_pos hi, if_neg (by simp)]
    rw [Nat.testBit_and, Nat.testBit_xor, Bool.and_eq_true]
    have h255 : Nat.testBit 255 k = true := by
      have he : (255 : Nat) = 2 ^ 8 - 1 := by norm_num
      rw [he, Nat.testBit_two_pow_sub_one]
      simpa using hk
    rw [h255]
    cases hd : data.testBit k <;> simp [hd, hi]
  · rw [if_neg hi]
    tauto

/-- Membership in `intRange`. -/
theorem mem_intRange (a b p : Int) : p ∈ intRange a b ↔ a ≤ p ∧ p ≤ b := by
  rw [intRange, List.mem_map]
  constructor
  · rintro ⟨j, hj, hfj⟩
    rw [List.mem_range] at hj
    omega
  · rintro ⟨h1, h2⟩
    refine ⟨(p - a).toNat, ?_, ?_⟩
    · rw [List.mem_range]
      omega
    · omega

/-- Bit content of `createPageMask`: exactly the inclusive range
`[start_bit, end_bit]`. -/
theorem createPageMask_testBit (s e k : Nat) :
    (FrameView.createPageMask s e).testBit k = true ↔ (s ≤ k ∧ k ≤ e) := by
  rw [FrameView.createPageMask]
  by_cases hse : s > e
  · rw [if_pos hse]
    simp only [Nat.zero_testBit, Bool.false_eq_true, false_iff]
    omega
  · rw [if_neg hse]
    rw [Nat.testBit_xor, Nat.shiftLeft_eq, Nat.shiftLeft_eq, one_mul, one_mul,
      Nat.testBit_two_pow_sub_one, Nat.testBit_two_pow_sub_one]
    by_cases h1 : k < e + 1 <;> by_cases h2 : k < s <;> simp [h1, h2] <;> omega

/-- Bit content of `calculatePageMask`: bit `k` of page `p` is set exactly
when absolute row `8p + k` lies in the view's vertical extent. -/
theorem calculatePageMask_testBit (fv : FrameView) (p : Int) (k : Nat) :
    (fv.calculatePageMask p).testBit k = true ↔
      (fv.offset_y ≤ 8 * p + k ∧ 8 * p + k < fv.offset_y + fv.height ∧ k < 8) := by
  simp only [FrameView.calculatePageMask]
  by_cases hg : max fv.offset_y (p * 8) ≥ min (fv.offset_y + fv.height) (p * 8 + 7 + 1)
  · rw [if_pos hg]
    simp only [Nat.zero_testBit, Bool.false_eq_true, false_iff]
    rintro ⟨ha, hb, hc⟩
    have hrow1 : max fv.offset_y (p * 8) ≤ 8 * p + (k : Int) :=
      max_le (by omega) (by omega)
    have hrow2 : (8 * p + (k : Int)) < min (fv.offset_y + fv.height) (p * 8 + 7 + 1) :=
      lt_min (by omega) (by omega)
    omega
  · rw [if_neg hg]
    rw [createPageMask_testBit]
    have hc1 := max_choice fv.offset_y (p * 8)
    have hc2 := min_choice (fv.offset_y + fv.height) (p * 8 + 7 + 1)
    have hm1 := le_max_left fv.offset_y (p * 8)
    have hm2 := le_max_right fv.offset_y (p * 8)
    have hm3 := min_le_left (fv.offset_y + fv.height) (p * 8 + 7 + 1)
    have hm4 := min_le_right (fv.offset_y + fv.height) (p * 8 + 7 + 1)
    omega

/-- `calculatePageMask` always fits in a byte. -/
theorem calculatePageMask_lt (fv : FrameView) (p : Int) : fv.calculatePageMask p < 256 := by
  simp only [FrameView.calculatePageMask]
  by_cases hg : max fv.offset_y (p * 8) ≥ min (fv.offset_y + fv.height) (p * 8 + 7 + 1)
  · rw [if_pos hg]; norm_num
  · rw [if_neg hg]
    rw [FrameView.createPageMask]
    by_cases hse : (max fv.offset_y (p * 8) - p * 8).toNat >
        (min (fv.offset_y + fv.height) (p * 8 + 7 + 1) - p * 8 - 1).toNat
    · rw [if_pos hse]; norm_num
    · rw [if_neg hse]
      have he : (min (fv.offset_y + fv.height) (p * 8 + 7 + 1) - p * 8 - 1).toNat ≤ 7 := by omega
      calc ((1 <<< ((min (fv.offset_y + fv.height) (p * 8 + 7 + 1) - p * 8 - 1).toNat + 1)) - 1) ^^^
            ((1 <<< (max fv.offset_y (p * 8) - p * 8).toNat) - 1) < 2 ^ 8 := by
            apply Nat.xor_lt_two_pow <;> rw [Nat.shiftLeft_eq, one_mul]
            · have : (2 : Nat) ^ ((min (fv.offset_y + fv.height) (p * 8 + 7 + 1) - p * 8 - 1).toNat + 1) ≤ 2 ^ 8 :=
                Nat.pow_le_pow_right (by norm_num) (by omega)
              omega
            · have h2 : (max fv.offset_y (p * 8) - p * 8).toNat ≤ 8 := by omega
              have : (2 : Nat) ^ (max fv.offset_y (p * 8) - p * 8).toNat ≤ 2 ^ 8 :=
                Nat.pow_le_pow_right (by norm_num) h2
              omega
        _ = 256 := by norm_num

/-- Helper: equality of booleans via their truth conditions. -/
theorem bool_eq_iff (a b : Bool) : a = b ↔ ((a = true) ↔ (b = true)) := by
  cases a <;> cases b <;> simp

/-- `writeData` keeps bytes below 256 when the written data fits a byte. -/
theorem writeData_lt (fv : FrameView) (buf : Buf) (abs_x page : Int) (data : Nat)
    (ink : Bool) (hb : ∀ i, buf i < 256) (hd : data < 256) :
    ∀ i, (fv.writeData buf abs_x page data ink) i < 256 := by
  intro i
  rw [FrameView.writeData]
  by_cases hi : i = page * fv.stride + abs_x
  · rw [if_pos hi]
    cases ink
    · rw [if_neg (by simp)]
      calc buf i &&& (255 ^^^ data) ≤ buf i := Nat.and_le_left
        _ < 256 := hb i
    · rw [if_pos rfl]
      have h8 : (256 : Nat) = 2 ^ 8 := by norm_num
      rw [h8] at hb hd ⊢
      exact Nat.or_lt_two_pow (hb i) hd
  · rw [if_neg hi]
    exact hb i

/-- The canonical fold shape of `fill`. -/
theorem fill_eq_foldl (fv : FrameView) (buf : Buf) (value : Bool) :
    fv.fill buf value =
      (intRange (fv.offset_y / 8) ((fv.offset_y + fv.height + 6) / 8)).foldl
        (fun b page =>
          if fv.calculatePageMask page = 0 then b
          else (List.range fv.width.toNat).foldl
            (fun b2 (xn : Nat) =>
              if fv.toAbsoluteX (xn : Int) < 0 ∨ fv.toAbsoluteX (xn : Int) ≥ fv.stride then b2
              else fv.writeData b2 (fv.toAbsoluteX (xn : Int)) page
                (fv.calculatePageMask page) value) b) buf := rfl

/-- The canonical fold shape of `setPixelAll`. -/
theorem setPixelAll_eq_foldl (fv : FrameView) (buf : Buf) (value : Bool) :
    fv.setPixelAll buf value =
      (List.range fv.height.toNat).foldl
        (fun b (yn : Nat) => (List.range fv.width.toNat).foldl
          (fun b2 (xn : Nat) => fv.setPixel b2 (xn : Int) (yn : Int) value) b) buf := rfl

/-- What `fill` with ink on contributes to each bit of each byte. -/
theorem fill_testBit_or (fv : FrameView) (buf : Buf) (i : Int) (k : Nat) :
    ((fv.fill buf true) i).testBit k = true ↔
      ((buf i).testBit k = true ∨
        ∃ p ∈ intRange (fv.offset_y / 8) ((fv.offset_y + fv.height + 6) / 8),
          ∃ xn ∈ List.range fv.width.toNat,
            ¬(fv.toAbsoluteX (xn : Int) < 0 ∨ fv.toAbsoluteX (xn : Int) ≥ fv.stride) ∧
            i = p * fv.stride + fv.toAbsoluteX (xn : Int) ∧
            (fv.calculatePageMask p).testBit k = true) := by
  rw [fill_eq_foldl]
  apply foldl_char_or (fun b => (b i).testBit k = true) _
    (fun p => ∃ xn ∈ List.range fv.width.toNat,
      ¬(fv.toAbsoluteX (xn : Int) < 0 ∨ fv.toAbsoluteX (xn : Int) ≥ fv.stride) ∧
      i = p * fv.stride + fv.toAbsoluteX (xn : Int) ∧
      (fv.calculatePageMask p).testBit k = true)
  intro b2 p _
  beta_reduce
  by_cases hm : fv.calculatePageMask p = 0
  · rw [if_pos hm]
    constructor
    · exact Or.inl
    · rintro (hg | ⟨xn, _, _, _, hbit⟩)
      · exact hg
      · rw [hm] at hbit
        simp at hbit
  · rw [if_neg hm]
    have hchar := foldl_char_or (fun b => (b i).testBit k = true)
      (fun b2 (xn : Nat) =>
        if fv.toAbsoluteX (xn : Int) < 0 ∨ fv.toAbsoluteX (xn : Int) ≥ fv.stride then b2
        else fv.writeData b2 (fv.toAbsoluteX (xn : Int)) p (fv.calculatePageMask p) true)
      (fun xn =>
        ¬(fv.toAbsoluteX (xn : Int) < 0 ∨ fv.toAbsoluteX (xn : Int) ≥ fv.stride) ∧
        i = p * fv.stride + fv.toAbsoluteX (xn : Int) ∧
        (fv.calculatePageMask p).testBit k = true)
      (List.range fv.width.toNat) b2 ?_
    · exact hchar
    · intro b3 xn _
      beta_reduce
      by_cases hskip : fv.toAbsoluteX (xn : Int) < 0 ∨ fv.toAbsoluteX (xn : Int) ≥ fv.stride
      · rw [if_pos hskip]
        tauto
      · rw [if_neg hskip]
        rw [writeData_testBit_or]
        tauto

/-- What `fill` with ink off clears from each bit of each byte. -/
theorem fill_testBit_and (fv : FrameView) (buf : Buf) (i : Int) (k : Nat) (hk : k < 8) :
    ((fv.fill buf false) i).testBit k = true ↔
      ((buf i).testBit k = true ∧
        ¬∃ p ∈ intRange (fv.offset_y / 8) ((fv.offset_y + fv.height + 6) / 8),
          ∃ xn ∈ List.range fv.width.toNat,
            ¬(fv.toAbsoluteX (xn : Int) < 0 ∨ fv.toAbsoluteX (xn : Int) ≥ fv.stride) ∧
            i = p * fv.stride + fv.toAbsoluteX (xn : Int) ∧
            (fv.calculatePageMask p).testBit k = true) := by
  rw [fill_eq_foldl]
  have hchar := foldl_char_and (fun b => (b i).testBit k = true)
    (fun b page =>
      if fv.calculatePageMask page = 0 then b
      else (List.range fv.width.toNat).foldl
        (fun b2 (xn : Nat) =>
          if fv.toAbsoluteX (xn : Int) < 0 ∨ fv.toAbsoluteX (xn : Int) ≥ fv.stride then b2
          else fv.writeData b2 (fv.toAbsoluteX (xn : Int)) page
            (fv.calculatePageMask page) false) b)
    (fun p => ∃ xn ∈ List.range fv.width.toNat,
      ¬(fv.toAbsoluteX (xn : Int) < 0 ∨ fv.toAbsoluteX (xn : Int) ≥ fv.stride) ∧
      i = p * fv.stride + fv.toAbsoluteX (xn : Int) ∧
      (fv.calculatePageMask p).testBit k = true)
    (intRange (fv.offset_y / 8) ((fv.offset_y + fv.height + 6) / 8)) buf ?_
  · rw [hchar]
    constructor
    · rintro ⟨hg, hall⟩
      refine ⟨hg, ?_⟩
      rintro ⟨p, hp, hrest⟩
      exact hall p hp hrest
    · rintro ⟨hg, hne⟩
      exact ⟨hg, fun p hp hrest => hne ⟨p, hp, hrest⟩⟩
  · intro b2 p _
    beta_reduce
    by_cases hm : fv.calculatePageMask p = 0
    · rw [if_pos hm]
      constructor
      · intro hg
        refine ⟨hg, ?_⟩
        rintro ⟨xn, _, _, _, hbit⟩
        rw [hm] at hbit
        simp at hbit
      · exact And.left
    · rw [if_neg hm]
      have hinner := foldl_char_and (fun b => (b i).testBit k = true)
        (fun b3 (xn : Nat) =>
          if fv.toAbsoluteX (xn : Int) < 0 ∨ fv.toAbsoluteX (xn : Int) ≥ fv.stride then b3
          else fv.writeData b3 (fv.toAbsoluteX (xn : Int)) p (fv.calculatePageMask p) false)
        (fun xn =>
          ¬(fv.toAbsoluteX (xn : Int) < 0 ∨ fv.toAbsoluteX (xn : Int) ≥ fv.stride) ∧
          i = p * fv.stride + fv.toAbsoluteX (xn : Int) ∧
          (fv.calculatePageMask p).testBit k = true)
        (List.range fv.width.toNat) b2 ?_
      · rw [hinner]
        constructor
        · rintro ⟨hg, hall⟩
          refine ⟨hg, ?_⟩
          rintro ⟨xn, hxn, hrest⟩
          exact hall xn hxn hrest
        · rintro ⟨hg, hne⟩
          exact ⟨hg, fun xn hxn hrest => hne ⟨xn, hxn, hrest⟩⟩
      · intro b3 xn _
        beta_reduce
        by_cases hskip : fv.toAbsoluteX (xn : Int) < 0 ∨ fv.toAbsoluteX (xn : Int) ≥ fv.stride
        · rw [if_pos hskip]
          tauto
        · rw [if_neg hskip]
          rw [writeData_testBit_and fv b3 _ _ _ _ _ hk]
          tauto

/-- The single `setPixel` with ink on, observed bit-by-bit. -/
theorem setPixel_testBit_or (fv : FrameView) (buf : Buf) (x y i : Int) (k : Nat) :
    ((fv.setPixel buf x y true) i).testBit k = true ↔
      ((buf i).testBit k = true ∨
        ((fv.isValid && fv.inside x y) = true ∧
         i = fv.getPage y * fv.stride + fv.toAbsoluteX x ∧
         (fv.getBitMask y).testBit k = true)) := by
  rw [FrameView.setPixel]
  by_cases hv : (fv.isValid && fv.inside x y) = true
  · rw [if_pos hv, FrameView.writePixel, writeData_testBit_or]
    tauto
  · rw [if_neg hv]
    tauto

/-- The single `setPixel` with ink off, observed bit-by-bit. -/
theorem setPixel_testBit_and (fv : FrameView) (buf : Buf) (x y i : Int) (k : Nat) (hk : k < 8) :
    ((fv.setPixel buf x y false) i).testBit k = true ↔
      ((buf i).testBit k = true ∧
        ¬((fv.isValid && fv.inside x y) = true ∧
          i = fv.getPage y * fv.stride + fv.toAbsoluteX x ∧
          (fv.getBitMask y).testBit k = true)) := by
  rw [FrameView.setPixel]
  by_cases hv : (fv.isValid && fv.inside x y) = true
  · rw [if_pos hv, FrameView.writePixel, writeData_testBit_and fv buf _ _ _ _ _ hk]
    tauto
  · rw [if_neg hv]
    tauto

/-- What `setPixelAll` with ink on contributes to each bit of each byte. -/
theorem setPixelAll_testBit_or (fv : FrameView) (buf : Buf) (i : Int) (k : Nat) :
    ((fv.setPixelAll buf true) i).testBit k = true ↔
      ((buf i).testBit k = true ∨
        ∃ yn ∈ List.range fv.height.toNat, ∃ xn ∈ List.range fv.width.toNat,
          (fv.isValid && fv.inside (xn : Int) (yn : Int)) = true ∧
          i = fv.getPage (yn : Int) * fv.stride + fv.toAbsoluteX (xn : Int) ∧
          (fv.getBitMask (yn : Int)).testBit k = true) := by
  rw [setPixelAll_eq_foldl]
  apply foldl_char_or (fun b => (b i).testBit k = true) _
    (fun (yn : Nat) => ∃ xn ∈ List.range fv.width.toNat,
      (fv.isValid && fv.inside (xn : Int) (yn : Int)) = true ∧
      i = fv.getPage (yn : Int) * fv.stride + fv.toAbsoluteX (xn : Int) ∧
      (fv.getBitMask (yn : Int)).testBit k = true)
  intro b2 yn _
  beta_reduce
  apply foldl_char_or (fun b => (b i).testBit k = true) _
    (fun (xn : Nat) => (fv.isValid && fv.inside (xn : Int) (yn : Int)) = true ∧
      i = fv.getPage (yn : Int) * fv.stride + fv.toAbsoluteX (xn : Int) ∧
      (fv.getBitMask (yn : Int)).testBit k = true)
  intro b3 xn _
  beta_reduce
  exact setPixel_testBit_or fv b3 (xn : Int) (yn : Int) i k

/-- What `setPixelAll` with ink off clears from each bit of each byte. -/
theorem setPixelAll_testBit_and (fv : FrameView) (buf : Buf) (i : Int) (k : Nat) (hk : k < 8) :
    ((fv.setPixelAll buf false) i).testBit k = true ↔
      ((buf i).testBit k = true ∧
        ¬∃ yn ∈ List.range fv.height.toNat, ∃ xn ∈ List.range fv.width.toNat,
          (fv.isValid && fv.inside (xn : Int) (yn : Int)) = true ∧
          i = fv.getPage (yn : Int) * fv.stride + fv.toAbsoluteX (xn : Int) ∧
          (fv.getBitMask (yn : Int)).testBit k = true) := by
  rw [setPixelAll_eq_foldl]
  have hchar := foldl_char_and (fun b => (b i).testBit k = true)
    (fun b (yn : Nat) => (List.range fv.width.toNat).foldl
      (fun b2 (xn : Nat) => fv.setPixel b2 (xn : Int) (yn : Int) false) b)
    (fun (yn : Nat) => ∃ xn ∈ List.range fv.width.toNat,
      (fv.isValid && fv.inside (xn : Int) (yn : Int)) = true ∧
      i = fv.getPage (yn : Int) * fv.stride + fv.toAbsoluteX (xn : Int) ∧
      (fv.getBitMask (yn : Int)).testBit k = true)
    (List.range fv.height.toNat) buf ?_
  · rw [hchar]
    constructor
    · rintro ⟨hg, hall⟩
      exact ⟨hg, fun ⟨yn, hyn, hrest⟩ => hall yn hyn hrest⟩
    · rintro ⟨hg, hne⟩
      exact ⟨hg, fun yn hyn hrest => hne ⟨yn, hyn, hrest⟩⟩
  · intro b2 yn _
    beta_reduce
    have hinner := foldl_char_and (fun b => (b i).testBit k = true)
      (fun b3 (xn : Nat) => fv.setPixel b3 (xn : Int) (yn : Int) false)
      (fun (xn : Nat) => (fv.isValid && fv.inside (xn : Int) (yn : Int)) = true ∧
        i = fv.getPage (yn : Int) * fv.stride + fv.toAbsoluteX (xn : Int) ∧
        (fv.getBitMask (yn : Int)).testBit k = true)
      (List.range fv.width.toNat) b2 ?_
    · rw [hinner]
      constructor
      · rintro ⟨hg, hall⟩
        exact ⟨hg, fun ⟨xn, hxn, hrest⟩ => hall xn hxn hrest⟩
      · rintro ⟨hg, hne⟩
        exact ⟨hg, fun xn hxn hrest => hne ⟨xn, hxn, hrest⟩⟩
    · intro b3 xn _
      beta_reduce
      exact setPixel_testBit_and fv b3 (xn : Int) (yn : Int) i k hk

/-- Bit content of `getBitMask`. -/
theorem getBitMask_testBit (fv : FrameView) (y : Int) (k : Nat) :
    (fv.getBitMask y).testBit k = true ↔ k = ((fv.offset_y + y) % 8).toNat := by
  rw [FrameView.getBitMask, Nat.shiftLeft_eq, one_mul, Nat.testBit_two_pow,
    show fv.toAbsoluteY y = fv.offset_y + y from rfl]
  simp only [decide_eq_true_eq]
  constructor <;> omega

/-- The page/bit decomposition used by `fill` enumerates exactly the same
writes as the row/column enumeration used by per-pixel `setPixel`, under the
display contract that the view's columns lie inside `[0, stride)`. -/
theorem fill_setPixelAll_bridge (fv : FrameView) (i : Int) (k : Nat)
    (hox : 0 ≤ fv.offset_x) (hw : fv.offset_x + fv.width ≤ fv.stride) :
    (∃ p ∈ intRange (fv.offset_y / 8) ((fv.offset_y + fv.height + 6) / 8),
      ∃ xn ∈ List.range fv.width.toNat,
        ¬(fv.toAbsoluteX (xn : Int) < 0 ∨ fv.toAbsoluteX (xn : Int) ≥ fv.stride) ∧
        i = p * fv.stride + fv.toAbsoluteX (xn : Int) ∧
        (fv.calculatePageMask p).testBit k = true) ↔
    (∃ yn ∈ List.range fv.height.toNat, ∃ xn ∈ List.range fv.width.toNat,
      (fv.isValid && fv.inside (xn : Int) (yn : Int)) = true ∧
      i = fv.getPage (yn : Int) * fv.stride + fv.toAbsoluteX (xn : Int) ∧
      (fv.getBitMask (yn : Int)).testBit k = true) := by
  constructor
  · rintro ⟨p, hp, xn, hxn, _, hieq, hmask⟩
    rw [mem_intRange] at hp
    rw [List.mem_range] at hxn
    rw [calculatePageMask_testBit] at hmask
    obtain ⟨hA, hB, hk8⟩ := hmask
    refine ⟨(8 * p + (k : Int) - fv.offset_y).toNat, ?_, xn, ?_, ?_, ?_, ?_⟩
    · rw [List.mem_range]
      omega
    · rw [List.mem_range]
      omega
    · rw [Bool.and_eq_true]
      constructor
      · rw [FrameView.isValid]
        simp only [Bool.or_eq_true, decide_eq_true_eq]
        exact Or.inl (Or.inr (by omega))
      · rw [FrameView.inside]
        simp only [Bool.and_eq_true, decide_eq_true_eq]
        refine ⟨⟨⟨by omega, by omega⟩, by omega⟩, by omega⟩
    · have hyv : fv.offset_y + (((8 * p + (k : Int) - fv.offset_y).toNat : Int)) =
          8 * p + (k : Int) := by omega
      rw [FrameView.getPage,
        show fv.toAbsoluteY (((8 * p + (k : Int) - fv.offset_y).toNat : Int)) =
          fv.offset_y + (((8 * p + (k : Int) - fv.offset_y).toNat : Int)) from rfl, hyv,
        show (8 * p + (k : Int)) / 8 = p from by omega]
      exact hieq
    · rw [getBitMask_testBit]
      omega
  · rintro ⟨yn, hyn, xn, hxn, hvi, hieq, hbit⟩
    rw [List.mem_range] at hyn hxn
    rw [getBitMask_testBit] at hbit
    rw [Bool.and_eq_true] at hvi
    have hins := hvi.2
    rw [FrameView.inside] at hins
    simp only [Bool.and_eq_true, decide_eq_true_eq] at hins
    refine ⟨(fv.offset_y + (yn : Int)) / 8, ?_, xn, ?_, ?_, ?_, ?_⟩
    · rw [mem_intRange]
      constructor <;> omega
    · rw [List.mem_range]
      omega
    · rw [show fv.toAbsoluteX (xn : Int) = fv.offset_x + (xn : Int) from rfl]
      omega
    · exact hieq
    · rw [calculatePageMask_testBit]
      refine ⟨by omega, by omega, by omega⟩

/-- `getBitMask` fits in a byte. -/
theorem getBitMask_lt (fv : FrameView) (y : Int) : fv.getBitMask y < 256 := by
  rw [FrameView.getBitMask, Nat.shiftLeft_eq, one_mul]
  have hk : (fv.toAbsoluteY y % 8).toNat < 8 := emod8_toNat_lt _
  calc (2 : Nat) ^ (fv.toAbsoluteY y % 8).toNat ≤ 2 ^ 7 :=
        Nat.pow_le_pow_right (by norm_num) (by omega)
    _ < 256 := by norm_num

/-- `fill` keeps bytes below 256. -/
theorem fill_bytes_lt (fv : FrameView) (buf : Buf) (value : Bool)
    (hb : ∀ i, buf i < 256) : ∀ i, (fv.fill buf value) i < 256 := by
  rw [fill_eq_foldl]
  apply foldl_bytes_lt _ ?_ _ _ hb
  intro b p hbb
  beta_reduce
  by_cases hm : fv.calculatePageMask p = 0
  · rw [if_pos hm]
    exact hbb
  · rw [if_neg hm]
    apply foldl_bytes_lt _ ?_ _ _ hbb
    intro b2 xn hb2
    beta_reduce
    by_cases hskip : fv.toAbsoluteX (xn : Int) < 0 ∨ fv.toAbsoluteX (xn : Int) ≥ fv.stride
    · rw [if_pos hskip]
      exact hb2
    · rw [if_neg hskip]
      exact writeData_lt fv b2 _ _ _ _ hb2 (calculatePageMask_lt fv p)

/-- `setPixelAll` keeps bytes below 256. -/
theorem setPixelAll_bytes_lt (fv : FrameView) (buf : Buf) (value : Bool)
    (hb : ∀ i, buf i < 256) : ∀ i, (fv.setPixelAll buf value) i < 256 := by
  rw [setPixelAll_eq_foldl]
  apply foldl_bytes_lt _ ?_ _ _ hb
  intro b yn hbb
  beta_reduce
  apply foldl_bytes_lt _ ?_ _ _ hbb
  intro b2 xn hb2
  beta_reduce
  rw [FrameView.setPixel]
  by_cases hv : (fv.isValid && fv.inside (xn : Int) (yn : Int)) = true
  · rw [if_pos hv, FrameView.writePixel]
    exact writeData_lt fv b2 _ _ _ _ hb2 (getBitMask_lt fv _)
  · rw [if_neg hv]
    exact hb2

/-- C2 (confirmed): under the documented display contract (the view's
columns lie inside `[0, stride)`, i.e. `0 ≤ offset_x` and
`offset_x + width ≤ stride`, and the buffer holds bytes), `fill(value)`
produces a backing buffer identical bit-for-bit to calling
`setPixel(x, y, value)` once for every coordinate `(x, y)` of the view; in
particular `fill(true)` sets every in-bounds pixel and `fill(false)` clears
them all. -/
theorem C2_fill_refines_setPixelAll (fv : FrameView) (buf : Buf) (value : Bool)
    (hox : 0 ≤ fv.offset_x) (hw : fv.offset_x + fv.width ≤ fv.stride)
    (hbytes : ∀ i, buf i < 256) :
    fv.fill buf value = fv.setPixelAll buf value := by
  funext i
  apply Nat.eq_of_testBit_eq
  intro k
  by_cases hk : k < 8
  · rw [bool_eq_iff]
    cases value
    · rw [fill_testBit_and fv buf i k hk, setPixelAll_testBit_and fv buf i k hk,
        fill_setPixelAll_bridge fv i k hox hw]
    · rw [fill_testBit_or fv buf i k, setPixelAll_testBit_or fv buf i k,
        fill_setPixelAll_bridge fv i k hox hw]
  · have h2k : (256 : Nat) ≤ 2 ^ k := by
      calc (256 : Nat) = 2 ^ 8 := by norm_num
        _ ≤ 2 ^ k := Nat.pow_le_pow_right (by norm_num) (by omega)
    rw [Nat.testBit_eq_false_of_lt (lt_of_lt_of_le (fill_bytes_lt fv buf value hbytes i) h2k),
      Nat.testBit_eq_false_of_lt
        (lt_of_lt_of_le (setPixelAll_bytes_lt fv buf value hbytes i) h2k)]

/-- C2 witness: a 2×6 view at offset (1,3) inside a 4-byte-wide display,
on the zero buffer: bulk fill equals per-pixel fill. -/
theorem C2_witness :
    ((0 : Int) ≤ 1) ∧ ((1 : Int) + 2 ≤ 4) ∧ (∀ i : Int, (fun _ : Int => 0) i < 256) ∧
    FrameView.fill ⟨false, 4, 1, 3, 2, 6⟩ (fun _ => 0) true =
      FrameView.setPixelAll ⟨false, 4, 1, 3, 2, 6⟩ (fun _ => 0) true :=
  ⟨by decide, by decide, fun _ => by show (0 : Nat) < 256; decide,
    C2_fill_refines_setPixelAll ⟨false, 4, 1, 3, 2, 6⟩ (fun _ => 0) true
      (by decide) (by decide) (fun _ => by show (0 : Nat) < 256; decide)⟩

/-- C9 witness: a 2-wide, 5-tall glyph drawn at (1,1) on an all-ones buffer
in an 8×8 view; the visited pixel (col 0, row 0) ends as its glyph bit. -/
theorem C9_witness :
    ((0 : Nat) < (⟨2, 5⟩ : Font).glyph_width) ∧
    ((0 : Nat) < (⟨2, 5⟩ : Font).glyph_height + 1) ∧
    ((0 : Int) ≤ (⟨false, 8, 0, 0, 8, 8⟩ : FrameView).offset_x) ∧
    ((⟨false, 8, 0, 0, 8, 8⟩ : FrameView).offset_x + (⟨false, 8, 0, 0, 8, 8⟩ : FrameView).width ≤
      (⟨false, 8, 0, 0, 8, 8⟩ : FrameView).stride) ∧
    (⟨false, 8, 0, 0, 8, 8⟩ : FrameView).inside (1 + ((0 : Nat) : Int)) (1 + ((0 : Nat) : Int)) = true ∧
    FrameView.getPixel ⟨false, 8, 0, 0, 8, 8⟩
      (Canvas.drawGlyph ⟨false, 8, 0, 0, 8, 8⟩ ⟨2, 5⟩ (fun _ => 255) 1 1
        (fun c => if c = 0 then 9 else 6) true)
      (1 + ((0 : Nat) : Int)) (1 + ((0 : Nat) : Int)) =
      ((((fun c => if c = 0 then 9 else 6) 0 : Nat).testBit 0) == true) :=
  ⟨by decide, by decide, by decide, by decide, by decide,
    C9_drawGlyph_opaque ⟨false, 8, 0, 0, 8, 8⟩ ⟨2, 5⟩ (fun _ => 255) 1 1
      (fun c => if c = 0 then 9 else 6) true 0 0
      (by decide) (by decide) (by decide) (by decide) (by decide)⟩

/-- The split write of `writeBitmapData` with ink on, observed row-by-row:
for any absolute row `r` and column `c` of the display, the bit gains exactly
the source byte's bit `r - page_y` when `c` is the written column and `r`
lies in the byte's 8-row span — covering both the aligned case and the
cross-page split case. -/
theorem writeBitmapData_testBit_or (fv : FrameView) (buf : Buf) (c0 page_y : Int)
    (data : Nat) (hdata : data < 256) (c r : Int)
    (hc : 0 ≤ c) (hcs : c < fv.stride) (hc0 : 0 ≤ c0) (hc0s : c0 < fv.stride) :
    ((fv.writeBitmapData buf c0 page_y data true) (r / 8 * fv.stride + c)).testBit
        (r % 8).toNat = true ↔
      ((buf (r / 8 * fv.stride + c)).testBit (r % 8).toNat = true ∨
        (c = c0 ∧ page_y ≤ r ∧ r < page_y + 8 ∧
          data.testBit (r - page_y).toNat = true)) := by
  simp only [FrameView.writeBitmapData]
  by_cases hoff : (page_y % 8).toNat = 0
  · rw [if_pos hoff, writeData_testBit_or]
    constructor
    · rintro (h | ⟨hidx, hbit⟩)
      · exact Or.inl h
      · obtain ⟨hpg, hcc⟩ := flat_index_inj fv.stride (r / 8) c (page_y / 8) c0 hc hcs hc0 hc0s hidx
        refine Or.inr ⟨hcc, by omega, by omega, ?_⟩
        rwa [show (r - page_y).toNat = (r % 8).toNat from by omega]
    · rintro (h | ⟨hcc, hr1, hr2, hbit⟩)
      · exact Or.inl h
      · refine Or.inr ⟨?_, ?_⟩
        · rw [hcc, show r / 8 = page_y / 8 from by omega]
        · rwa [show (r % 8).toNat = (r - page_y).toNat from by omega]
  · rw [if_neg hoff, writeData_testBit_or, writeData_testBit_or]
    have hofflt : (page_y % 8).toNat < 8 := emod8_toNat_lt _
    have hshl : ∀ m : Nat, ((data <<< (page_y % 8).toNat) % 256).testBit m =
        (decide (m < 8) && (decide (m ≥ (page_y % 8).toNat) &&
          data.testBit (m - (page_y % 8).toNat))) := by
      intro m
      rw [show (256 : Nat) = 2 ^ 8 from by norm_num, Nat.testBit_mod_two_pow,
        Nat.testBit_shiftLeft]
    have hshr : ∀ m : Nat, (data >>> (8 - (page_y % 8).toNat)).testBit m =
        data.testBit ((8 - (page_y % 8).toNat) + m) := fun m => Nat.testBit_shiftRight data
    constructor
    · rintro ((h | ⟨hidx, hbit⟩) | ⟨hidx, hbit⟩)
      · exact Or.inl h
      · obtain ⟨hpg, hcc⟩ := flat_index_inj fv.stride (r / 8) c (page_y / 8) c0 hc hcs hc0 hc0s hidx
        rw [hshl] at hbit
        simp only [Bool.and_eq_true, decide_eq_true_eq] at hbit
        obtain ⟨hm8, hmo, hbit⟩ := hbit
        refine Or.inr ⟨hcc, by omega, by omega, ?_⟩
        rwa [show (r - page_y).toNat = (r % 8).toNat - (page_y % 8).toNat from by omega]
      · obtain ⟨hpg, hcc⟩ :=
          flat_index_inj fv.stride (r / 8) c (page_y / 8 + 1) c0 hc hcs hc0 hc0s hidx
        rw [hshr] at hbit
        by_cases hbig : 8 ≤ (8 - (page_y % 8).toNat) + (r % 8).toNat
        · exfalso
          have hf : data.testBit ((8 - (page_y % 8).toNat) + (r % 8).toNat) = false :=
            Nat.testBit_eq_false_of_lt (lt_of_lt_of_le hdata (by
              calc (256 : Nat) = 2 ^ 8 := by norm_num
                _ ≤ 2 ^ ((8 - (page_y % 8).toNat) + (r % 8).toNat) :=
                  Nat.pow_le_pow_right (by norm_num) hbig))
          rw [hf] at hbit
          exact Bool.false_ne_true hbit
        · refine Or.inr ⟨hcc, by omega, by omega, ?_⟩
          rwa [show (r - page_y).toNat = (8 - (page_y % 8).toNat) + (r % 8).toNat from by omega]
    · rintro (h | ⟨hcc, hr1, hr2, hbit⟩)
      · exact Or.inl (Or.inl h)
      · by_cases hcase : r % 8 ≥ page_y % 8
        · refine Or.inl (Or.inr ⟨?_, ?_⟩)
          · rw [hcc, show r / 8 = page_y / 8 from by omega]
          · rw [hshl]
            simp only [Bool.and_eq_true, decide_eq_true_eq]
            refine ⟨by omega, by omega, ?_⟩
            rwa [show (r % 8).toNat - (page_y % 8).toNat = (r - page_y).toNat from by omega]
        · refine Or.inr ⟨?_, ?_⟩
          · rw [hcc, show r / 8 = page_y / 8 + 1 from by omega]
          · rw [hshr]
            rwa [show (8 - (page_y % 8).toNat) + (r % 8).toNat = (r - page_y).toNat from by omega]

/-- Bit content of `calculateBitmapMask` for a page that is not skipped by
`drawBitmap`'s visibility test: bit `j` is set exactly when absolute row
`page_y + j` lies in the view's vertical extent. -/
theorem calculateBitmapMask_testBit (fv : FrameView) (page_y : Int)
    (h1 : fv.offset_y ≤ page_y + 7) (h2 : page_y < fv.offset_y + fv.height) (j : Nat) :
    (fv.calculateBitmapMask page_y).testBit j = true ↔
      (fv.offset_y ≤ page_y + j ∧ page_y + j < fv.offset_y + fv.height ∧ j < 8) := by
  simp only [FrameView.calculateBitmapMask]
  rw [createPageMask_testBit]
  by_cases ht : page_y < fv.offset_y <;> by_cases hb : page_y + 7 ≥ fv.offset_y + fv.height
  · rw [if_pos ht, if_pos hb]; omega
  · rw [if_pos ht, if_neg hb]; omega
  · rw [if_neg ht, if_pos hb]; omega
  · rw [if_neg ht, if_neg hb]; omega

/-- The canonical fold shape of `drawBitmapRow`. -/
theorem drawBitmapRow_eq_foldl (fv : FrameView) (buf : Buf) (bm : BitMap)
    (page_idx x page_y : Int) (mask : Nat) (ink : Bool) :
    fv.drawBitmapRow buf bm page_idx x page_y mask ink =
      (List.range bm.W.toNat).foldl (fun b (bxn : Nat) =>
        if fv.offset_x + x + (bxn : Int) < fv.offset_x ∨
            fv.offset_x + x + (bxn : Int) ≥ fv.offset_x + fv.width then b
        else if bm.buffer (page_idx * bm.W + (bxn : Int)) &&& mask = 0 then b
        else fv.writeBitmapData b (fv.offset_x + x + (bxn : Int)) page_y
          (bm.buffer (page_idx * bm.W + (bxn : Int)) &&& mask) ink) buf := rfl

/-- The canonical fold shape of `drawBitmap`. -/
theorem drawBitmap_eq_foldl (fv : FrameView) (buf : Buf) (bm : BitMap) (x y : Int)
    (ink : Bool) :
    fv.drawBitmap buf bm x y ink =
      (List.range bm.pages.toNat).foldl (fun b (pin : Nat) =>
        if fv.offset_y + y + (pin : Int) * 8 + 7 < fv.offset_y ∨
            fv.offset_y + y + (pin : Int) * 8 ≥ fv.offset_y + fv.height then b
        else if fv.calculateBitmapMask (fv.offset_y + y + (pin : Int) * 8) = 0 then b
        else fv.drawBitmapRow b bm (pin : Int) x (fv.offset_y + y + (pin : Int) * 8)
          (fv.calculateBitmapMask (fv.offset_y + y + (pin : Int) * 8)) ink) buf := rfl

/-- What one `drawBitmapRow` with ink on contributes to a display bit:
exactly the masked source byte's bits of the columns that pass the
horizontal clip, placed 8 rows below `page_y`. -/
theorem drawBitmapRow_testBit_or (fv : FrameView) (buf : Buf) (bm : BitMap)
    (page_idx x page_y : Int) (mask : Nat)
    (hbytes : ∀ i, bm.buffer i < 256)
    (hox : 0 ≤ fv.offset_x) (hw : fv.offset_x + fv.width ≤ fv.stride)
    (c r : Int) (hc : 0 ≤ c) (hcs : c < fv.stride) :
    ((fv.drawBitmapRow buf bm page_idx x page_y mask true) (r / 8 * fv.stride + c)).testBit
        (r % 8).toNat = true ↔
      ((buf (r / 8 * fv.stride + c)).testBit (r % 8).toNat = true ∨
        ∃ bxn ∈ List.range bm.W.toNat,
          ¬(fv.offset_x + x + (bxn : Int) < fv.offset_x ∨
            fv.offset_x + x + (bxn : Int) ≥ fv.offset_x + fv.width) ∧
          c = fv.offset_x + x + (bxn : Int) ∧ page_y ≤ r ∧ r < page_y + 8 ∧
          ((bm.buffer (page_idx * bm.W + (bxn : Int)) &&& mask).testBit
            (r - page_y).toNat = true)) := by
  rw [drawBitmapRow_eq_foldl]
  apply foldl_char_or (fun b => (b (r / 8 * fv.stride + c)).testBit (r % 8).toNat = true) _
    (fun (bxn : Nat) =>
      ¬(fv.offset_x + x + (bxn : Int) < fv.offset_x ∨
        fv.offset_x + x + (bxn : Int) ≥ fv.offset_x + fv.width) ∧
      c = fv.offset_x + x + (bxn : Int) ∧ page_y ≤ r ∧ r < page_y + 8 ∧
      ((bm.buffer (page_idx * bm.W + (bxn : Int)) &&& mask).testBit
        (r - page_y).toNat = true))
  intro b2 bxn _
  beta_reduce
  by_cases hskip : fv.offset_x + x + (bxn : Int) < fv.offset_x ∨
      fv.offset_x + x + (bxn : Int) ≥ fv.offset_x + fv.width
  · rw [if_pos hskip]
    tauto
  · rw [if_neg hskip]
    by_cases hdz : bm.buffer (page_idx * bm.W + (bxn : Int)) &&& mask = 0
    · rw [if_pos hdz]
      constructor
      · exact Or.inl
      · rintro (hg | ⟨_, _, _, _, hbit⟩)
        · exact hg
        · rw [hdz] at hbit
          simp at hbit
    · rw [if_neg hdz]
      rw [writeBitmapData_testBit_or fv b2 (fv.offset_x + x + (bxn : Int)) page_y
        (bm.buffer (page_idx * bm.W + (bxn : Int)) &&& mask)
        (lt_of_le_of_lt Nat.and_le_left (hbytes _)) c r hc hcs (by omega) (by omega)]
      tauto

/-- What `drawBitmap` with ink on contributes to a display bit: for some
non-clipped source page and some non-clipped source column, the masked
byte's bit addressed to row `r`, column `c`. -/
theorem drawBitmap_testBit_or (fv : FrameView) (buf : Buf) (bm : BitMap) (x y : Int)
    (hbytes : ∀ i, bm.buffer i < 256)
    (hox : 0 ≤ fv.offset_x) (hw : fv.offset_x + fv.width ≤ fv.stride)
    (c r : Int) (hc : 0 ≤ c) (hcs : c < fv.stride) :
    ((fv.drawBitmap buf bm x y true) (r / 8 * fv.stride + c)).testBit (r % 8).toNat = true ↔
      ((buf (r / 8 * fv.stride + c)).testBit (r % 8).toNat = true ∨
        ∃ pin ∈ List.range bm.pages.toNat,
          ¬(fv.offset_y + y + (pin : Int) * 8 + 7 < fv.offset_y ∨
            fv.offset_y + y + (pin : Int) * 8 ≥ fv.offset_y + fv.height) ∧
          ∃ bxn ∈ List.range bm.W.toNat,
            ¬(fv.offset_x + x + (bxn : Int) < fv.offset_x ∨
              fv.offset_x + x + (bxn : Int) ≥ fv.offset_x + fv.width) ∧
            c = fv.offset_x + x + (bxn : Int) ∧
            fv.offset_y + y + (pin : Int) * 8 ≤ r ∧ r < fv.offset_y + y + (pin : Int) * 8 + 8 ∧
            ((bm.buffer ((pin : Int) * bm.W + (bxn : Int)) &&&
              fv.calculateBitmapMask (fv.offset_y + y + (pin : Int) * 8)).testBit
                (r - (fv.offset_y + y + (pin : Int) * 8)).toNat = true)) := by
  rw [drawBitmap_eq_foldl]
  apply foldl_char_or (fun b => (b (r / 8 * fv.stride + c)).testBit (r % 8).toNat = true) _
    (fun (pin : Nat) =>
      ¬(fv.offset_y + y + (pin : Int) * 8 + 7 < fv.offset_y ∨
        fv.offset_y + y + (pin : Int) * 8 ≥ fv.offset_y + fv.height) ∧
      ∃ bxn ∈ List.range bm.W.toNat,
        ¬(fv.offset_x + x + (bxn : Int) < fv.offset_x ∨
          fv.offset_x + x + (bxn : Int) ≥ fv.offset_x + fv.width) ∧
        c = fv.offset_x + x + (bxn : Int) ∧
        fv.offset_y + y + (pin : Int) * 8 ≤ r ∧ r < fv.offset_y + y + (pin : Int) * 8 + 8 ∧
        ((bm.buffer ((pin : Int) * bm.W + (bxn : Int)) &&&
          fv.calculateBitmapMask (fv.offset_y + y + (pin : Int) * 8)).testBit
            (r - (fv.offset_y + y + (pin : Int) * 8)).toNat = true))
  intro b2 pin _
  beta_reduce
  by_cases hg1 : fv.offset_y + y + (pin : Int) * 8 + 7 < fv.offset_y ∨
      fv.offset_y + y + (pin : Int) * 8 ≥ fv.offset_y + fv.height
  · rw [if_pos hg1]
    tauto
  · rw [if_neg hg1]
    by_cases hm : fv.calculateBitmapMask (fv.offset_y + y + (pin : Int) * 8) = 0
    · rw [if_pos hm]
      constructor
      · exact Or.inl
      · rintro (hgg | ⟨_, bxn, _, _, _, _, _, hbit⟩)
        · exact hgg
        · rw [hm] at hbit
          simp at hbit
    · rw [if_neg hm]
      rw [drawBitmapRow_testBit_or fv b2 bm (pin : Int) x (fv.offset_y + y + (pin : Int) * 8)
        (fv.calculateBitmapMask (fv.offset_y + y + (pin : Int) * 8)) hbytes hox hw c r hc hcs]
      constructor
      · rintro (hgg | ⟨bxn, hmem, hrest⟩)
        · exact Or.inl hgg
        · exact Or.inr ⟨hg1, bxn, hmem, hrest⟩
      · rintro (hgg | ⟨_, bxn, hmem, hrest⟩)
        · exact Or.inl hgg
        · exact Or.inr ⟨bxn, hmem, hrest⟩

/-- C1: for every bitmap, destination position (x, y) and a zero-initialized
backing buffer, `drawBitmap` with ink on reproduces the source bitmap's bit
pattern exactly at the destination offset for every bit inside the view: the
display bit at view-relative column `x + bxn`, row `y + byn` equals bit
`byn % 8` of source byte `(byn / 8) * W + bxn`. The destination `y` (and the
view's `offset_y`) are arbitrary, so the statement covers the cross-page
split performed by `writeBitmapData` whenever the absolute vertical offset
`page_y & 7` is nonzero: the low bits shifted left into the current page and
the high bits shifted right into the next page together land each source bit
on exactly its destination row. -/
theorem C1_drawBitmap_reproduces (fv : FrameView) (bm : BitMap) (x y : Int) (bxn byn : Nat)
    (hox : 0 ≤ fv.offset_x) (hw : fv.offset_x + fv.width ≤ fv.stride)
    (hbytes : ∀ i, bm.buffer i < 256)
    (hbx : (bxn : Int) < bm.W) (hby : (byn : Int) < 8 * bm.pages)
    (hinx1 : 0 ≤ x + (bxn : Int)) (hinx2 : x + (bxn : Int) < fv.width)
    (hiny1 : 0 ≤ y + (byn : Int)) (hiny2 : y + (byn : Int) < fv.height) :
    readBit (fv.drawBitmap (fun _ => 0) bm x y true) fv.stride
        (fv.offset_x + x + (bxn : Int)) (fv.offset_y + y + (byn : Int)) =
      (bm.buffer (((byn / 8 : Nat) : Int) * bm.W + (bxn : Int))).testBit (byn % 8) := by
  rw [bool_eq_iff]
  simp only [readBit]
  rw [drawBitmap_testBit_or fv (fun _ => 0) bm x y hbytes hox hw
    (fv.offset_x + x + (bxn : Int)) (fv.offset_y + y + (byn : Int)) (by omega) (by omega)]
  simp only [Nat.zero_testBit, Bool.false_eq_true, false_or]
  constructor
  · rintro ⟨pin, hpmem, hguard, bxn2, hbmem, hskip, hceq, hr1, hr2, hbit⟩
    have hb2 : bxn2 = bxn := by omega
    subst hb2
    have hp2 : pin = byn / 8 := by omega
    subst hp2
    rw [Nat.testBit_and, Bool.and_eq_true] at hbit
    obtain ⟨hb1, _⟩ := hbit
    rwa [show (fv.offset_y + y + (byn : Int) -
      (fv.offset_y + y + ((byn / 8 : Nat) : Int) * 8)).toNat = byn % 8 from by omega] at hb1
  · intro hbit
    refine ⟨byn / 8, ?_, ?_, bxn, ?_, ?_, rfl, by omega, by omega, ?_⟩
    · rw [List.mem_range]
      omega
    · omega
    · rw [List.mem_range]
      omega
    · omega
    · rw [Nat.testBit_and, Bool.and_eq_true]
      constructor
      · rwa [show (fv.offset_y + y + (byn : Int) -
          (fv.offset_y + y + ((byn / 8 : Nat) : Int) * 8)).toNat = byn % 8 from by omega]
      · rw [show (fv.offset_y + y + (byn : Int) -
            (fv.offset_y + y + ((byn / 8 : Nat) : Int) * 8)).toNat = byn % 8 from by omega,
          calculateBitmapMask_testBit fv _ (by omega) (by omega)]
        omega

/-- C1 at a concrete input: a 1-column 16-row bitmap of bytes 170 drawn at
(0, 3) on a 4x32 view of a stride-4 display — vertical offset 3 forces the
cross-page split — with the bit at source column 0, source row 9 read back. -/
theorem C1_witness :
    ((0 : Int) ≤ (⟨false, 4, 0, 0, 4, 32⟩ : FrameView).offset_x) ∧
    ((⟨false, 4, 0, 0, 4, 32⟩ : FrameView).offset_x + (⟨false, 4, 0, 0, 4, 32⟩ : FrameView).width ≤
      (⟨false, 4, 0, 0, 4, 32⟩ : FrameView).stride) ∧
    (∀ i : Int, (fun _ : Int => 170) i < 256) ∧
    (((0 : Nat) : Int) < (⟨1, 16, fun _ => 170⟩ : BitMap).W) ∧
    (((9 : Nat) : Int) < 8 * (⟨1, 16, fun _ => 170⟩ : BitMap).pages) ∧
    ((0 : Int) ≤ 0 + ((0 : Nat) : Int)) ∧
    ((0 : Int) + ((0 : Nat) : Int) < (⟨false, 4, 0, 0, 4, 32⟩ : FrameView).width) ∧
    ((0 : Int) ≤ 3 + ((9 : Nat) : Int)) ∧
    ((3 : Int) + ((9 : Nat) : Int) < (⟨false, 4, 0, 0, 4, 32⟩ : FrameView).height) ∧
    readBit (FrameView.drawBitmap ⟨false, 4, 0, 0, 4, 32⟩ (fun _ => 0) ⟨1, 16, fun _ => 170⟩
        0 3 true) (⟨false, 4, 0, 0, 4, 32⟩ : FrameView).stride
        ((⟨false, 4, 0, 0, 4, 32⟩ : FrameView).offset_x + 0 + ((0 : Nat) : Int))
        ((⟨false, 4, 0, 0, 4, 32⟩ : FrameView).offset_y + 3 + ((9 : Nat) : Int)) =
      ((⟨1, 16, fun _ => 170⟩ : BitMap).buffer
        (((9 / 8 : Nat) : Int) * (⟨1, 16, fun _ => 170⟩ : BitMap).W + ((0 : Nat) : Int))).testBit
        (9 % 8) :=
  ⟨by decide, by decide, fun _ => by show (170 : Nat) < 256; decide, by decide, by decide,
    by decide, by decide, by decide, by decide,
    C1_drawBitmap_reproduces ⟨false, 4, 0, 0, 4, 32⟩ ⟨1, 16, fun _ => 170⟩ 0 3 0 9
      (by decide) (by decide) (fun _ => by show (170 : Nat) < 256; decide)
      (by decide) (by decide) (by decide) (by decide) (by decide) (by decide)⟩

end KF
